import Mathlib

/-!
Verification of the `tfhe-omr` OMR core against its natural-language
specification.  The Rust sources under `omr_core/src` are shallowly embedded
below: machine integers become `Nat` (with explicit `% 2 ^ w` where wrap-around
matters), modular residues become `ZMod p`, fallible code returns `Option` or a
dedicated outcome type, and a panic is a distinguished outcome value.

The embedded functions keep the names of their Rust counterparts where Lean
allows it.  Payload modular arithmetic (`Payload::mul_scalar`,
`Payload::sub_assign` with an explicit modulus) is used by `matrix.rs` but the
snapshot's `payload.rs` only contains the wrapping-`u8` variant, so the modular
payload operations are modelled from the spec (spec section 3: a payload is a
fixed-length sequence of 612 elements of `ZMod p` with elementwise modular
add/sub and modular scalar-mul).
-/

/-! ## Exact half-up rounding

`retriever.rs` rounds `c * p / q` half-up using exact `BigDecimal` arithmetic
(`with_scale_round(0, RoundingMode::HalfUp)`).  Over the naturals, half-up
rounding of the exact rational `n / d` is `(2 * n + d) / (2 * d)`. -/

def roundHalfUp (n d : ℕ) : ℕ :=
  (2 * n + d) / (2 * d)

/-- The coefficient rounding step of `Retriever::decode_pertinent_indices`
(also used by `decode_combined_payloads`): map a field value `c < q` to
`round-half-up (c * p / q)` and subtract `p` once if the result reached `p`.
Mirrors retriever.rs lines 84-89. -/
def decodeCoeff (c p q : ℕ) : ℕ :=
  let t := roundHalfUp (c * p) q
  if p ≤ t then t - p else t

/-! ## First-level bootstrapping offset (detector.rs lines 380-397)

`InterLweValue` is `u32` (parameters/mod.rs line 17), so `InterLweValue::BITS`
is 32 and arithmetic wraps modulo `2 ^ 32`.  `log_plain_modulus` is
`trailing_zeros` of the (power-of-two) intermediate plaintext modulus
`t_m = 2 ^ logt`. -/

/-- Modulus kinds of the algebra layer's `ModulusValue` enum, specialised to
the `u32` carrier used for the intermediate LWE ciphertext. -/
inductive InterModulusValue where
  | native : InterModulusValue
  | powOf2 : ℕ → InterModulusValue
  | prime : ℕ → InterModulusValue
  | others : ℕ → InterModulusValue

/-- The modulus a `ModulusValue` denotes; `Native` means the full `u32` range. -/
def InterModulusValue.modulus : InterModulusValue → ℕ
  | .native => 2 ^ 32
  | .powOf2 q => q
  | .prime q => q
  | .others q => q

/-- The per-modulus-kind scale `q_m / t_m` from the `match` in
`first_level_bootstrapping` (detector.rs lines 385-392), before the
multiplication by the clue count. -/
def firstLevelOffsetScale (mv : InterModulusValue) (logt : ℕ) : ℕ :=
  match mv with
  | .native => (1 <<< (32 - logt)) % 2 ^ 32
  | .powOf2 q => q >>> logt
  | .prime q => ((q >>> (logt - 1)) + 1) >>> 1
  | .others q => ((q >>> (logt - 1)) + 1) >>> 1

/-- The body update of the intermediate LWE ciphertext (detector.rs lines
383-397): multiply the scale by the clue count (`u32`, wrapping), reduce it
modulo `q_m`, and add it to the body modulo `q_m`. -/
def firstLevelAddOffset (mv : InterModulusValue) (logt clueCount b : ℕ) : ℕ :=
  let scale := (clueCount * firstLevelOffsetScale mv logt) % 2 ^ 32
  (b + scale % mv.modulus) % mv.modulus

/-! ## Negacyclic LUT builder (lut.rs)

`negacyclic_lut` fills the zero polynomial of length `coeff_count` in chunks
of `coeff_count >> log_t` coefficients, pairing chunks with
`self.iter().interleave(self[1..].iter())`.  `chunks_mut` panics when the
chunk size is zero, and `&self[1..]` panics when the table is empty; those are
the only panic sources, modelled as `none`.  Chunks beyond the interleaved
sequence keep their initial zero value. -/

/-- The `itertools` interleave: alternate elements, starting with the first
list, appending the leftover tail when one side runs out. -/
def interleave : List α → List α → List α
  | [], ys => ys
  | x :: xs, [] => x :: xs
  | x :: xs, y :: ys => x :: y :: interleave xs ys

/-- Shallow embedding of `LookUpTable::negacyclic_lut` (slice impl, lut.rs
lines 29-44); the fixed-size-array impl is identical and the closure impl is
the same construction applied to the table `(0..t).map(f)`. -/
def negacyclic_lut (q : ℕ) (table : List (ZMod q)) (coeffCount logt : ℕ) :
    Option (List (ZMod q)) :=
  let halfDelta := coeffCount >>> logt
  if halfDelta = 0 ∨ table = [] then none
  else
    let vals := interleave table (table.drop 1)
    some ((List.range coeffCount).map fun idx => vals.getD (idx / halfDelta) 0)

/-! ## First-level blind rotation accumulator (detector.rs lines 356-360)

The per-clue blind rotation outputs (RLWE ciphertexts over `F_1`, each a mask
and a body polynomial) are summed element-wise with
`reduce(add_element_wise)`, falling back to the zero ciphertext of the
first-level ring dimension for an empty clue list.  Blind rotation itself
belongs to the external `fhe_core` layer and stays abstract. -/

/-- An RLWE ciphertext: mask polynomial `a` and body polynomial `b`. -/
structure RlweCt (q : ℕ) where
  a : List (ZMod q)
  b : List (ZMod q)
deriving DecidableEq

/-- Element-wise ciphertext addition (`add_element_wise`). -/
def addElementWise (x y : RlweCt q) : RlweCt q :=
  ⟨List.zipWith (fun u v => u + v) x.a y.a, List.zipWith (fun u v => u + v) x.b y.b⟩

/-- The zero RLWE ciphertext of ring dimension `dim`. -/
def zeroRlwe (q dim : ℕ) : RlweCt q :=
  ⟨List.replicate dim 0, List.replicate dim 0⟩

/-- The accumulator of `first_level_bootstrapping`:
`iter().map(blind_rotate).reduce(add_element_wise).unwrap_or_else(zero)`.
Rust's `reduce` starts from the first element, so the fold starts there. -/
def accumulateBlindRotations (q dim : ℕ) (outs : List (RlweCt q)) : RlweCt q :=
  match outs with
  | [] => zeroRlwe q dim
  | x :: xs => xs.foldl addElementWise x

/-! ## Retrieval parameters: index slots per bucket (retrieval_params.rs 47-103)

`RetrievalParams::new` computes `index_slots_per_bucket` from the index
modulus `p` and the board size `all_payloads_count = N`.  Rust's integer
helpers are embedded with fuel so that they evaluate inside the kernel:
`ilog b n` is `n.ilog(b)` (floor log) and `ceilLog2 n` is
`n.next_power_of_two().trailing_zeros()` (the ceiling of `log2 n`). -/

def ilogFuel (b : ℕ) : ℕ → ℕ → ℕ
  | 0, _ => 0
  | fuel + 1, n => if n < b then 0 else ilogFuel b fuel (n / b) + 1

/-- Floor logarithm, `u32::ilog` / `usize::ilog`. -/
def ilog (b n : ℕ) : ℕ := ilogFuel b n n

def ceilLog2Fuel : ℕ → ℕ → ℕ
  | 0, _ => 0
  | fuel + 1, n => if n ≤ 1 then 0 else ceilLog2Fuel fuel ((n + 1) / 2) + 1

/-- Ceiling of `log2`, i.e. `n.next_power_of_two().trailing_zeros()`. -/
def ceilLog2 (n : ℕ) : ℕ := ceilLog2Fuel n n

/-- Rust `div_ceil`. -/
def divCeil (a b : ℕ) : ℕ := (a + b - 1) / b

/-- Rust `is_power_of_two` (`count_ones() == 1`). -/
def isPowerOfTwo (n : ℕ) : Bool := n != 0 && n == 2 ^ ilog 2 n

/-- The `index_slots_per_bucket` computation of `RetrievalParams::new`
(retrieval_params.rs lines 56-72); `slots_per_bucket` is this plus one. -/
def index_slots_per_bucket (p N : ℕ) : ℕ :=
  if isPowerOfTwo p then
    divCeil (ceilLog2 N) (ilog 2 p)
  else
    let pow1 := if p ^ ilog p N < N then ilog p N + 1 else ilog p N
    if pow1 = 0 then 1 else pow1

/-! ## Matrix solvers (matrix.rs)

Gaussian elimination with back substitution, acting simultaneously on a
`num_rows x num_cols` matrix over `ZMod p` and on a vector of payloads.  The
in-place Rust loops become pure state transformers on total functions; a
`ℕ → ℕ → ZMod p` matrix is read only at indices below `R` resp. `C`.  The
`assert!(num_rows >= num_cols)` and the `assert_eq!(gcd, 1)` of the generic
solver are modelled by the `panicked` outcome.  Payloads are spec-modelled
(see the file header): a payload is a `PAYLOAD_LENGTH`-vector over `ZMod p`
with elementwise modular operations, i.e. a `ZMod p`-module. -/

def PAYLOAD_LENGTH : ℕ := 612

/-- Spec-modelled payload: 612 elements of `ZMod p`, with elementwise add/sub
and scalar multiplication (`Payload::mul_scalar`, `Payload::sub_assign`). -/
abbrev PayloadV (p : ℕ) := Fin PAYLOAD_LENGTH → ZMod p

/-- Result of a solver call: `Ok(payloads)`, `Err(OmrError::InvertibleMatrix)`,
or a panic (failed assertion). -/
inductive SolveOutcome (p : ℕ) where
  | ok : List (PayloadV p) → SolveOutcome p
  | invertibleMatrixErr : SolveOutcome p
  | panicked : SolveOutcome p
deriving DecidableEq

/-- Solver state: the matrix and the payload vector, updated in lock-step. -/
structure GState (p : ℕ) where
  M : ℕ → ℕ → ZMod p
  b : ℕ → PayloadV p

/-- Scan rows `start, start+1, ...` (`cnt` of them) for the first entry of
column `col` satisfying `pick` (odd for mod 256, non-zero otherwise). -/
def findPivot (pick : ZMod p → Bool) (M : ℕ → ℕ → ZMod p) (col : ℕ) :
    ℕ → ℕ → Option ℕ
  | _start, 0 => none
  | start, cnt + 1 =>
    if pick (M start col) then some start else findPivot pick M col (start + 1) cnt

/-- Swap rows `i` and `j` of the matrix and the payload vector. -/
def swapRows (st : GState p) (i j : ℕ) : GState p :=
  ⟨fun r c => if r = i then st.M j c else if r = j then st.M i c else st.M r c,
   fun r => if r = i then st.b j else if r = j then st.b i else st.b r⟩

/-- Normalize pivot row `i`: set the pivot entry to `1`, multiply the entries
in columns `i+1 .. C-1` and the payload by the inverse `w`. -/
def normalizeRow (C i : ℕ) (w : ZMod p) (st : GState p) : GState p :=
  ⟨fun r c =>
      if r = i then
        if c = i then 1 else if i + 1 ≤ c ∧ c < C then st.M i c * w else st.M i c
      else st.M r c,
   fun r => if r = i then w • st.b i else st.b r⟩

/-- Eliminate row `r` against pivot row `i`: subtract `c` times row `i` on
columns `i .. C-1` and `c` times payload `i` from payload `r`, where
`c = M[r][i]` (skipped when `c = 0`, as in the source). -/
def elimRow (C i r : ℕ) (st : GState p) : GState p :=
  let c := st.M r i
  if c = 0 then st
  else
    ⟨fun r2 c2 => if r2 = r ∧ i ≤ c2 ∧ c2 < C then st.M r c2 - st.M i c2 * c else st.M r2 c2,
     fun r2 => if r2 = r then st.b r - c • st.b i else st.b r2⟩

/-- Eliminate `cnt` rows starting at row `r` against pivot row `i`. -/
def elimRows (C i : ℕ) : ℕ → ℕ → GState p → GState p
  | _r, 0, st => st
  | r, cnt + 1, st => elimRows C i (r + 1) cnt (elimRow C i r st)

/-- Intermediate result of the forward elimination loop. -/
inductive ForwardRes (p : ℕ) where
  | next : GState p → ForwardRes p
  | errPivot : ForwardRes p
  | panicNoInverse : ForwardRes p

/-- The forward elimination loop (`for i in 0..num_cols`), with `fuel = C - i`
remaining pivot steps: find a pivot (else return the `InvertibleMatrix`
error), swap it up (skipped when already in place), normalize the pivot row
unless the pivot is `1` (`inv v = none` models the generic solver's
`assert_eq!(gcd, 1)` panic), break before elimination on the last column, and
otherwise eliminate the rows below the pivot. -/
def forwardStepNorm (inv : ZMod p → Option (ZMod p)) (C i : ℕ) (st1 : GState p) :
    Option (GState p) :=
  if st1.M i i = 1 then some st1
  else
    match inv (st1.M i i) with
    | none => none
    | some w => some (normalizeRow C i w st1)

/-- The forward elimination loop over pivot steps, with `fuel = C - i`
remaining iterations. -/
def forward (pick : ZMod p → Bool) (inv : ZMod p → Option (ZMod p)) (R C : ℕ) :
    ℕ → ℕ → GState p → ForwardRes p
  | _i, 0, st => .next st
  | i, fuel + 1, st =>
    match findPivot pick st.M i i (R - i) with
    | none => .errPivot
    | some j =>
      match forwardStepNorm inv C i (if i = j then st else swapRows st i j) with
      | none => .panicNoInverse
      | some st2 =>
        if fuel = 0 then .next st2
        else forward pick inv R C (i + 1) fuel (elimRows C i (i + 1) (R - (i + 1)) st2)

/-- One step of back substitution for column `col`: clear the entries above
the diagonal in column `col`, updating payloads `0 .. col-1` accordingly. -/
def backSubstCol (col : ℕ) (st : GState p) : GState p :=
  ⟨fun r c => if c = col ∧ r < col then 0 else st.M r c,
   fun r => if r < col then st.b r - st.M r col • st.b col else st.b r⟩

/-- Back substitution over columns `col, col-1, ..., 1`
(`for i_cols in (1..num_cols).rev()`). -/
def backSubst : ℕ → GState p → GState p
  | 0, st => st
  | col + 1, st => backSubst col (backSubstCol (col + 1) st)

/-- The common solver skeleton of the three `solve_matrix*` functions:
`assert!(num_rows >= num_cols)`, forward elimination, back substitution,
and `Ok(payloads[0..num_cols])`. -/
def gaussSolve (pick : ZMod p → Bool) (inv : ZMod p → Option (ZMod p)) (R C : ℕ)
    (M0 : ℕ → ℕ → ZMod p) (b0 : ℕ → PayloadV p) : SolveOutcome p :=
  if R < C then .panicked
  else
    match forward pick inv R C 0 C ⟨M0, b0⟩ with
    | .errPivot => .invertibleMatrixErr
    | .panicNoInverse => .panicked
    | .next st => .ok ((List.range C).map (backSubst (C - 1) st).b)

def INV_MOD_256 : List ℕ :=
  [0, 1, 0, 171, 0, 205, 0, 183, 0, 57, 0, 163, 0, 197, 0, 239, 0, 241, 0, 27,
   0, 61, 0, 167, 0, 41, 0, 19, 0, 53, 0, 223, 0, 225, 0, 139, 0, 173, 0, 151,
   0, 25, 0, 131, 0, 165, 0, 207, 0, 209, 0, 251, 0, 29, 0, 135, 0, 9, 0, 243,
   0, 21, 0, 191, 0, 193, 0, 107, 0, 141, 0, 119, 0, 249, 0, 99, 0, 133, 0,
   175, 0, 177, 0, 219, 0, 253, 0, 103, 0, 233, 0, 211, 0, 245, 0, 159, 0, 161,
   0, 75, 0, 109, 0, 87, 0, 217, 0, 67, 0, 101, 0, 143, 0, 145, 0, 187, 0, 221,
   0, 71, 0, 201, 0, 179, 0, 213, 0, 127, 0, 129, 0, 43, 0, 77, 0, 55, 0, 185,
   0, 35, 0, 69, 0, 111, 0, 113, 0, 155, 0, 189, 0, 39, 0, 169, 0, 147, 0, 181,
   0, 95, 0, 97, 0, 11, 0, 45, 0, 23, 0, 153, 0, 3, 0, 37, 0, 79, 0, 81, 0,
   123, 0, 157, 0, 7, 0, 137, 0, 115, 0, 149, 0, 63, 0, 65, 0, 235, 0, 13, 0,
   247, 0, 121, 0, 227, 0, 5, 0, 47, 0, 49, 0, 91, 0, 125, 0, 231, 0, 105, 0,
   83, 0, 117, 0, 31, 0, 33, 0, 203, 0, 237, 0, 215, 0, 89, 0, 195, 0, 229, 0,
   15, 0, 17, 0, 59, 0, 93, 0, 199, 0, 73, 0, 51, 0, 85, 0, 255]

def INV_MOD_257 : List ℕ :=
  [0, 1, 129, 86, 193, 103, 43, 147, 225, 200, 180, 187, 150, 178, 202, 120,
   241, 121, 100, 230, 90, 49, 222, 190, 75, 72, 89, 238, 101, 195, 60, 199,
   249, 148, 189, 235, 50, 132, 115, 145, 45, 163, 153, 6, 111, 40, 95, 175,
   166, 21, 36, 126, 173, 97, 119, 243, 179, 248, 226, 61, 30, 59, 228, 102,
   253, 87, 74, 234, 223, 149, 246, 181, 25, 169, 66, 24, 186, 247, 201, 244,
   151, 165, 210, 96, 205, 127, 3, 65, 184, 26, 20, 209, 176, 152, 216, 46, 83,
   53, 139, 135, 18, 28, 63, 5, 215, 164, 177, 245, 188, 224, 250, 44, 218,
   116, 124, 38, 113, 134, 159, 54, 15, 17, 158, 140, 114, 220, 51, 85, 255, 2,
   172, 206, 37, 143, 117, 99, 240, 242, 203, 98, 123, 144, 219, 133, 141, 39,
   213, 7, 33, 69, 12, 80, 93, 42, 252, 194, 229, 239, 122, 118, 204, 174, 211,
   41, 105, 81, 48, 237, 231, 73, 192, 254, 130, 52, 161, 47, 92, 106, 13, 56,
   10, 71, 233, 191, 88, 232, 76, 11, 108, 34, 23, 183, 170, 4, 155, 29, 198,
   227, 196, 31, 9, 78, 14, 138, 160, 84, 131, 221, 236, 91, 82, 162, 217, 146,
   251, 104, 94, 212, 112, 142, 125, 207, 22, 68, 109, 8, 58, 197, 62, 156, 19,
   168, 185, 182, 67, 35, 208, 167, 27, 157, 136, 16, 137, 55, 79, 107, 70, 77,
   57, 32, 110, 214, 154, 64, 171, 128, 256]

/-- Solver modulo 256 (matrix.rs lines 78-159): pivot on the first odd entry,
inverses from the `INV_MOD_256` table. -/
def solve_matrix_mod_256 (R C : ℕ) (M0 : ℕ → ℕ → ZMod 256) (b0 : ℕ → PayloadV 256) :
    SolveOutcome 256 :=
  gaussSolve (fun v => v.val % 2 == 1)
    (fun v => some ((INV_MOD_256.getD v.val 0 : ℕ) : ZMod 256)) R C M0 b0

/-- Solver modulo 257 (matrix.rs lines 164-247): pivot on the first non-zero
entry, inverses from the `INV_MOD_257` table. -/
def solve_matrix_mod_257 (R C : ℕ) (M0 : ℕ → ℕ → ZMod 257) (b0 : ℕ → PayloadV 257) :
    SolveOutcome 257 :=
  gaussSolve (fun v => decide (v ≠ 0))
    (fun v => some ((INV_MOD_257.getD v.val 0 : ℕ) : ZMod 257)) R C M0 b0

/-- Generic solver (matrix.rs lines 250-336): pivot on the first non-zero
entry; the inverse comes from `Xgcd::gcdinv` and `assert_eq!(gcd, 1)` panics
when the pivot is not invertible, modelled by `none`.  (`ZMod.inv` is the
same extended-gcd inverse, and `a * a⁻¹ = gcd a.val p` in `ZMod p`.) -/
def solve_matrix (p R C : ℕ) (M0 : ℕ → ℕ → ZMod p) (b0 : ℕ → PayloadV p) :
    SolveOutcome p :=
  gaussSolve (fun v => decide (v ≠ 0))
    (fun v => if Nat.gcd v.val p = 1 then some v⁻¹ else none) R C M0 b0

/-! ## Solver correctness infrastructure -/

/-- The top-left `n x n` corner of an index-function matrix, as a Mathlib
matrix (used to state invertibility). -/
def matOf (n : ℕ) (M : ℕ → ℕ → ZMod p) : Matrix (Fin n) (Fin n) (ZMod p) :=
  Matrix.of fun i j => M i.val j.val

/-- The combined payloads `A * x` handed to a solver (spec: the linear
combinations `sum of A[r][c] * x[c]`). -/
def combinedPayloads (n : ℕ) (A : ℕ → ℕ → ZMod p) (x : ℕ → PayloadV p) :
    ℕ → PayloadV p :=
  fun r => ∑ c ∈ Finset.range n, A r c • x c

/-- Forward-elimination invariant before pivot step `i`: processed pivots are
`1`; processed columns vanish below the diagonal; every payload row is the
matrix-weighted combination of the unknowns `x`; the matrix stays invertible. -/
structure FwdInv (n i : ℕ) (x : ℕ → PayloadV p) (st : GState p) : Prop where
  diag : ∀ k, k < i → st.M k k = 1
  below : ∀ k r, k < i → k < r → r < n → st.M r k = 0
  comb : ∀ r, r < n → st.b r = ∑ c ∈ Finset.range n, st.M r c • x c
  det : IsUnit (matOf n st.M).det

/-- Back-substitution invariant while processing column `col` downwards:
the matrix is unit upper triangular, columns beyond `col` are cleared above
the diagonal, rows above `col` still hold combinations, rows below are
already solved. -/
structure BackInv (n col : ℕ) (x : ℕ → PayloadV p) (st : GState p) : Prop where
  upT : ∀ k r, k < r → r < n → st.M r k = 0
  diag : ∀ k, k < n → st.M k k = 1
  combLow : ∀ r, r ≤ col → r < n → st.b r = ∑ c ∈ Finset.range n, st.M r c • x c
  solvedHigh : ∀ r, col < r → r < n → st.b r = x r
  cleared : ∀ r c, r ≤ col → col < c → c < n → st.M r c = 0

/-! ## Retriever: index decoding and digest decoding (retriever.rs)

`decode_pertinent_indices` receives an RLWE ciphertext; the decryption
`b - a * z` and the inverse NTT belong to the external algebra layer (spec
section 1 treats it as given), so the embedded function takes the resulting
coefficient list.  The seeded weight derivation (`StdRng` from the session
seed) is likewise external (`Modelled from the spec:` spec section 9, the
deterministic row-major uniform draw), so `decode_digest` takes the weight
stream and the decoded combined payloads as function parameters. -/

def chunksExactFuel : ℕ → ℕ → List α → List (List α)
  | 0, _, _ => []
  | fuel + 1, k, l =>
    if 0 < k ∧ k ≤ l.length then l.take k :: chunksExactFuel fuel k (l.drop k) else []

/-- Rust `chunks_exact`: full chunks of size `k`, remainder dropped
(`chunks_exact(0)` panics and never occurs here; modelled as no chunks).
Fuelled by the list length so that it evaluates in the kernel. -/
def chunksExact (k : ℕ) (l : List α) : List (List α) :=
  chunksExactFuel l.length k l

/-- The model of `RetrievalParams` as consumed by the retriever. -/
structure RetrievalParamsModel where
  indexModulus : ℕ
  fieldModulus : ℕ
  slotsPerBucket : ℕ
  slotsPerSegment : ℕ
  pertinentCount : ℕ
  combinationCount : ℕ
  allPayloadsCount : ℕ
deriving DecidableEq

/-- Power-of-two bucket readout: digits below the sentinel, most significant
first (`rev().skip(1)`), combined by shift-or. -/
def bucketIndexPow2 (shiftBits : ℕ) (bucket : List ℕ) : ℕ :=
  bucket.dropLast.reverse.foldl (fun acc v => acc <<< shiftBits ||| v) 0

/-- Generic bucket readout: digits combined in base `p`. -/
def bucketIndexGeneric (p : ℕ) (bucket : List ℕ) : ℕ :=
  bucket.dropLast.reverse.foldl (fun acc v => acc * p + v) 0

/-- The indices a single decrypted index ciphertext contributes: round every
coefficient to `ZMod p` scale, slice into segments and buckets, and read each
bucket whose sentinel (last slot) equals `1`. -/
def extractIndices (P : RetrievalParamsModel) (decrypted : List ℕ) : List ℕ :=
  let decoded := decrypted.map fun c => decodeCoeff c P.indexModulus P.fieldModulus
  (chunksExact P.slotsPerSegment decoded).flatMap fun seg =>
    (chunksExact P.slotsPerBucket seg).filterMap fun bucket =>
      if bucket.getLast? = some 1 then
        some (if isPowerOfTwo P.indexModulus then
            bucketIndexPow2 (ilog 2 P.indexModulus) bucket
          else bucketIndexGeneric P.indexModulus bucket)
      else none

/-- `Retriever::decode_pertinent_indices` (retriever.rs lines 63-130): insert
every extracted index into the running set; succeed iff the set now has
exactly `pertinent_count` elements. -/
def decode_pertinent_indices (P : RetrievalParamsModel) (set : Finset ℕ)
    (decrypted : List ℕ) : Finset ℕ × Bool :=
  let newSet := (extractIndices P decrypted).foldl (fun s idx => insert idx s) set
  (newSet, newSet.card == P.pertinentCount)

/-- The ciphertext loop of `decode_digest` (retriever.rs lines 200-204):
process ciphertexts until one call reports success; the set persists across
failed calls. -/
def digestLoop (P : RetrievalParamsModel) : List (List ℕ) → Finset ℕ → Finset ℕ
  | [], set => set
  | d :: rest, set =>
    let r := decode_pertinent_indices P set d
    if r.2 then r.1 else digestLoop P rest r.1

/-- Result of `decode_digest`. -/
inductive DigestResult where
  | ok : List ℕ → List (List ℕ) → DigestResult
  | errInvertible : DigestResult
  | panicked : DigestResult
deriving DecidableEq

/-- Payload vectors, re-read as natural-number byte lists. -/
def payloadsToNat {p : ℕ} (l : List (PayloadV p)) : List (List ℕ) :=
  l.map fun f => List.ofFn fun k => (f k).val

/-- `Retriever::decode_digest` (retriever.rs lines 188-260): run the index
loop, sort the recovered indices, build the `combination_count x |indices|`
weight matrix restricted to those indices, and dispatch on the index modulus
to the matching solver.  `weights r i` is the seed-derived uniform weight of
payload `i` in combination row `r` and `combined r` the decoded combined
payload of row `r` (both produced outside this function). -/
def decode_digest (P : RetrievalParamsModel) (set0 : Finset ℕ)
    (encodedIndices : List (List ℕ)) (weights : ℕ → ℕ → ℕ)
    (combined : ℕ → Fin PAYLOAD_LENGTH → ℕ) : DigestResult :=
  let finalSet := digestLoop P encodedIndices set0
  let indices := finalSet.sort (· ≤ ·)
  let pertinentCount := indices.length
  let p := P.indexModulus
  if p = 256 then
    match solve_matrix_mod_256 P.combinationCount pertinentCount
        (fun r c => ((weights r (indices.getD c 0) : ℕ) : ZMod 256))
        (fun r k => ((combined r k : ℕ) : ZMod 256)) with
    | .ok payloads => .ok indices (payloadsToNat payloads)
    | .invertibleMatrixErr => .errInvertible
    | .panicked => .panicked
  else if p = 257 then
    match solve_matrix_mod_257 P.combinationCount pertinentCount
        (fun r c => ((weights r (indices.getD c 0) : ℕ) : ZMod 257))
        (fun r k => ((combined r k : ℕ) : ZMod 257)) with
    | .ok payloads => .ok indices (payloadsToNat payloads)
    | .invertibleMatrixErr => .errInvertible
    | .panicked => .panicked
  else
    match solve_matrix p P.combinationCount pertinentCount
        (fun r c => ((weights r (indices.getD c 0) : ℕ) : ZMod p))
        (fun r k => ((combined r k : ℕ) : ZMod p)) with
    | .ok payloads => .ok indices (payloadsToNat payloads)
    | .invertibleMatrixErr => .errInvertible
    | .panicked => .panicked

/-! ## Theorems -/

theorem roundHalfUp_le (c p q : ℕ) (hc : c < q) :
    roundHalfUp (c * p) q ≤ p := by
  have hq : 0 < q := Nat.pos_of_ne_zero (by omega)
  unfold roundHalfUp
  have h2q : 0 < 2 * q := by omega
  rw [Nat.div_le_iff_le_mul_add_pred h2q]
  have hmul : c * p + p ≤ q * p := by
    calc c * p + p = (c + 1) * p := by ring
    _ ≤ q * p := Nat.mul_le_mul_right p (by omega)
  have hexp : 2 * q * p = 2 * (q * p) := by ring
  omega

/-- Key fact behind claim C7: the decoded coefficient equals the half-up
rounding of `c * p / q` reduced mod `p`, and lies in `[0, p)`. -/
theorem decodeCoeff_eq_mod (c p q : ℕ) (hp : 0 < p) (hc : c < q) :
    decodeCoeff c p q = roundHalfUp (c * p) q % p ∧ decodeCoeff c p q < p := by
  have hle := roundHalfUp_le c p q hc
  unfold decodeCoeff
  by_cases h : p ≤ roundHalfUp (c * p) q
  · have heq : roundHalfUp (c * p) q = p := le_antisymm hle h
    rw [if_pos h, heq]
    simp [Nat.mod_self, hp]
  · rw [if_neg h]
    have hlt : roundHalfUp (c * p) q < p := lt_of_not_ge h
    exact ⟨(Nat.mod_eq_of_lt hlt).symm, hlt⟩

theorem shiftRight_eq_div_pow_local (n k : ℕ) : n >>> k = n / 2 ^ k :=
  Nat.shiftRight_eq_div_pow n k

/-- The half-up rounding identity behind the prime-modulus branch:
`((q >>> (logt - 1)) + 1) >>> 1` is exactly `roundHalfUp q (2 ^ logt)`
whenever `logt ≥ 1`. -/
theorem prime_scale_eq_roundHalfUp (q logt : ℕ) (h : 1 ≤ logt) :
    ((q >>> (logt - 1)) + 1) >>> 1 = roundHalfUp q (2 ^ logt) := by
  obtain ⟨h', rfl⟩ : ∃ h', logt = h' + 1 := ⟨logt - 1, by omega⟩
  simp only [Nat.add_sub_cancel, shiftRight_eq_div_pow_local, Nat.shiftRight_succ,
    Nat.shiftRight_zero]
  unfold roundHalfUp
  have e1 : 2 * q + 2 ^ (h' + 1) = 2 * (q + 2 ^ h') := by ring
  have e2 : 2 * 2 ^ (h' + 1) = 2 * (2 ^ h' * 2) := by ring
  rw [e1, e2, Nat.mul_div_mul_left _ _ (by norm_num : 0 < 2), ← Nat.div_div_eq_div_mul,
    Nat.add_div_right _ (Nat.pos_pow_of_pos h' (by norm_num)), pow_one]

theorem add_mod_mod_eq (b x q : ℕ) : (b + x % q) % q = (b + x) % q := by
  conv_rhs => rw [Nat.add_mod]
  rw [Nat.add_mod, Nat.mod_mod_of_dvd _ dvd_rfl]

/-- Claim C6: after the modulus switch, `first_level_bootstrapping` adds
`clue_count * s` (reduced mod `q_m`) to the ciphertext body, where `s` is
exactly `q_m / t_m` for a native or power-of-two modulus and exactly the
half-up rounding of `q_m / t_m` for a prime or arbitrary modulus. -/
theorem first_level_offset_exact :
    (∀ logt c b, 1 ≤ logt → logt ≤ 32 →
      firstLevelOffsetScale .native logt = 2 ^ 32 / 2 ^ logt ∧
      firstLevelAddOffset .native logt c b = (b + c * (2 ^ 32 / 2 ^ logt)) % 2 ^ 32) ∧
    (∀ k logt c b, logt ≤ k → c * (2 ^ k / 2 ^ logt) < 2 ^ 32 →
      firstLevelOffsetScale (.powOf2 (2 ^ k)) logt = 2 ^ k / 2 ^ logt ∧
      firstLevelAddOffset (.powOf2 (2 ^ k)) logt c b = (b + c * (2 ^ k / 2 ^ logt)) % 2 ^ k) ∧
    (∀ q logt c b, 1 ≤ logt → c * roundHalfUp q (2 ^ logt) < 2 ^ 32 →
      firstLevelOffsetScale (.prime q) logt = roundHalfUp q (2 ^ logt) ∧
      firstLevelAddOffset (.prime q) logt c b = (b + c * roundHalfUp q (2 ^ logt)) % q) := by
  refine ⟨fun logt c b h1 h32 => ?_, fun k logt c b hlk hlt => ?_, fun q logt c b h1 hlt => ?_⟩
  · have hscale : firstLevelOffsetScale .native logt = 2 ^ 32 / 2 ^ logt := by
      simp only [firstLevelOffsetScale, Nat.shiftLeft_eq, one_mul]
      rw [Nat.mod_eq_of_lt (Nat.pow_lt_pow_right one_lt_two (by omega)),
        Nat.pow_div h32 two_pos]
    refine ⟨hscale, ?_⟩
    simp only [firstLevelAddOffset, hscale, InterModulusValue.modulus]
    rw [Nat.mod_mod_of_dvd _ dvd_rfl, add_mod_mod_eq]
  · have hscale : firstLevelOffsetScale (.powOf2 (2 ^ k)) logt = 2 ^ k / 2 ^ logt := by
      simp only [firstLevelOffsetScale, shiftRight_eq_div_pow_local]
    refine ⟨hscale, ?_⟩
    simp only [firstLevelAddOffset, hscale, InterModulusValue.modulus]
    rw [Nat.mod_eq_of_lt hlt, add_mod_mod_eq]
  · have hscale : firstLevelOffsetScale (.prime q) logt = roundHalfUp q (2 ^ logt) := by
      simp only [firstLevelOffsetScale]
      exact prime_scale_eq_roundHalfUp q logt h1
    refine ⟨hscale, ?_⟩
    simp only [firstLevelAddOffset, hscale, InterModulusValue.modulus]
    rw [Nat.mod_eq_of_lt hlt, add_mod_mod_eq]

/-- Witness for C6 at the concrete parameter set (`t_m = 32`, `q_m = 4096`,
seven clues). -/
theorem first_level_offset_exact_witness :
    (firstLevelOffsetScale .native 5 = 2 ^ 32 / 2 ^ 5 ∧
      firstLevelAddOffset .native 5 7 3 = (3 + 7 * (2 ^ 32 / 2 ^ 5)) % 2 ^ 32) ∧
    (firstLevelOffsetScale (.powOf2 (2 ^ 12)) 5 = 2 ^ 12 / 2 ^ 5 ∧
      firstLevelAddOffset (.powOf2 (2 ^ 12)) 5 7 3 = (3 + 7 * (2 ^ 12 / 2 ^ 5)) % 2 ^ 12) ∧
    (firstLevelOffsetScale (.prime 13) 2 = roundHalfUp 13 (2 ^ 2) ∧
      firstLevelAddOffset (.prime 13) 2 7 3 = (3 + 7 * roundHalfUp 13 (2 ^ 2)) % 13) :=
  ⟨first_level_offset_exact.1 5 7 3 (by norm_num) (by norm_num),
    first_level_offset_exact.2.1 12 5 7 3 (by norm_num) (by norm_num),
    first_level_offset_exact.2.2 13 2 7 3 (by norm_num) (by norm_num [roundHalfUp])⟩

/-- Witness for C7 at concrete values. -/
theorem decodeCoeff_eq_mod_witness :
    (0 < 256 ∧ 3 < 8) ∧
      (decodeCoeff 3 256 8 = roundHalfUp (3 * 256) 8 % 256 ∧ decodeCoeff 3 256 8 < 256) :=
  ⟨⟨by norm_num, by norm_num⟩, decodeCoeff_eq_mod 3 256 8 (by norm_num) (by norm_num)⟩

theorem interleave_nil (ys : List α) : interleave [] ys = ys := rfl

theorem interleave_cons (x : α) (xs ys : List α) :
    interleave (x :: xs) ys = x :: interleave ys xs := by
  induction xs generalizing x ys with
  | nil => cases ys <;> rfl
  | cons x2 xs ih =>
    cases ys with
    | nil => rfl
    | cons y ys =>
      show x :: y :: interleave (x2 :: xs) ys = x :: y :: x2 :: interleave ys xs
      rw [ih]

theorem interleave_self_getD (d : α) :
    ∀ (t : List α) (k : ℕ), (interleave t t).getD k d = t.getD (k / 2) d := by
  intro t
  induction t with
  | nil => intro k; rw [interleave_nil]; simp [List.getD]
  | cons x xs ih =>
    intro k
    have hexp : interleave (x :: xs) (x :: xs) = x :: x :: interleave xs xs := by
      rw [interleave_cons, interleave_cons]
    rw [hexp]
    match k with
    | 0 => rfl
    | 1 => rfl
    | k + 2 =>
      have h2 : (k + 2) / 2 = k / 2 + 1 := by omega
      simp only [List.getD_cons_succ, ih k, h2]

theorem interleave_drop_one_getD (d : α) (v : List α) (k : ℕ) :
    (interleave v (v.drop 1)).getD k d = v.getD ((k + 1) / 2) d := by
  match v with
  | [] => rw [List.drop_nil, interleave_nil]; simp [List.getD]
  | x :: t =>
    have hexp : interleave (x :: t) ((x :: t).drop 1) = x :: interleave t t := by
      simp only [List.drop_one, List.tail_cons]
      rw [interleave_cons]
    rw [hexp]
    match k with
    | 0 => rfl
    | k + 1 =>
      have h2 : (k + 1 + 1) / 2 = k / 2 + 1 := by omega
      simp only [List.getD_cons_succ, interleave_self_getD d t k, h2]

/-- Full characterization of a successful `negacyclic_lut` call: the output
has length `coeff_count`; position `k * halfDelta + j` (chunk `k`, offset
`j < halfDelta`) carries entry `(k + 1) / 2` of the table, with `getD`
returning the polynomial's initial `0` for chunks past the interleaved
sequence. -/
theorem negacyclicLut_spec (q : ℕ) (table : List (ZMod q)) (N logt : ℕ)
    (hhd : N >>> logt ≠ 0) (ht : table ≠ []) :
    ∃ L, negacyclic_lut q table N logt = some L ∧ L.length = N ∧
      ∀ k j, j < N >>> logt → k * (N >>> logt) + j < N →
        L.getD (k * (N >>> logt) + j) 0 = table.getD ((k + 1) / 2) 0 := by
  refine ⟨(List.range N).map
      (fun idx => (interleave table (table.drop 1)).getD (idx / (N >>> logt)) 0), ?_, ?_, ?_⟩
  · unfold negacyclic_lut
    rw [if_neg (by tauto)]
  · simp
  · intro k j hj hlt
    have hget : ((List.range N).map
        (fun idx => (interleave table (table.drop 1)).getD (idx / (N >>> logt)) 0)).getD
          (k * (N >>> logt) + j) 0
        = (interleave table (table.drop 1)).getD ((k * (N >>> logt) + j) / (N >>> logt)) 0 := by
      rw [List.getD_eq_getElem?_getD, List.getElem?_map, List.getElem?_range hlt]
      rfl
    rw [hget]
    have hm : 0 < N >>> logt := Nat.pos_of_ne_zero hhd
    have hdiv : (k * (N >>> logt) + j) / (N >>> logt) = k := by
      rw [Nat.mul_comm k (N >>> logt), Nat.mul_add_div hm, Nat.div_eq_of_lt hj, Nat.add_zero]
    rw [hdiv, interleave_drop_one_getD]

/-- Counterexample for C4: `negacyclic_lut` applies no negation.  For the
one-entry table `[1]` over `F_5` with `N = 2`, the claim asks for second-half
coefficients `-v_0 = -1`, but the code yields `1` (with `log_t = 0`) resp. the
initial `0` (with `log_t = 1`); in `F_5`, `-1 = 4` equals neither. -/
theorem C4_counterexample :
    (negacyclic_lut 5 [1] 2 0 = some [1, 1] ∧ ((1 : ZMod 5) = -1 → False)) ∧
    (negacyclic_lut 5 [1] 2 1 = some [1, 0] ∧ ((0 : ZMod 5) = -1 → False)) := by
  decide

/-- Claim C4 (amended): `negacyclic_lut` writes the interleaved sequence
`(v_0, v_1, v_1, v_2, v_2, ...)` - table entry `(k + 1) / 2` into chunk `k` of
`coeff_count >> log_t` coefficients - performing no negation; chunks past the
`2 t - 1` interleaved values keep the zero polynomial's coefficients.  Any
negacyclic wrap-around value must already be baked into the table by the
caller (as `first_level_lut` and `second_level_lut` do). -/
theorem C4_negacyclic_lut_layout (q : ℕ) (table : List (ZMod q)) (N logt : ℕ)
    (hhd : N >>> logt ≠ 0) (ht : table ≠ []) :
    ∃ L, negacyclic_lut q table N logt = some L ∧ L.length = N ∧
      (∀ k j, j < N >>> logt → k * (N >>> logt) + j < N →
        L.getD (k * (N >>> logt) + j) 0 = table.getD ((k + 1) / 2) 0) ∧
      (∀ k j, j < N >>> logt → k * (N >>> logt) + j < N → 2 * table.length - 1 ≤ k →
        L.getD (k * (N >>> logt) + j) 0 = 0) := by
  obtain ⟨L, h1, h2, h3⟩ := negacyclicLut_spec q table N logt hhd ht
  refine ⟨L, h1, h2, h3, fun k j hj hlt hk => ?_⟩
  rw [h3 k j hj hlt]
  apply List.getD_eq_default
  have h0 : 0 < table.length := List.length_pos.mpr ht
  omega

/-- Witness for the amended C4 statement: table `[1, 2]` over `F_5`,
`N = 8`, `log_t = 2`. -/
theorem C4_negacyclic_lut_layout_witness :
    (8 >>> 2 ≠ 0 ∧ ([1, 2] : List (ZMod 5)) ≠ []) ∧
      ∃ L, negacyclic_lut 5 [1, 2] 8 2 = some L ∧ L.length = 8 ∧
        (∀ k j, j < 8 >>> 2 → k * (8 >>> 2) + j < 8 →
          L.getD (k * (8 >>> 2) + j) 0 = ([1, 2] : List (ZMod 5)).getD ((k + 1) / 2) 0) ∧
        (∀ k j, j < 8 >>> 2 → k * (8 >>> 2) + j < 8 → 2 * ([1, 2] : List (ZMod 5)).length - 1 ≤ k →
          L.getD (k * (8 >>> 2) + j) 0 = 0) :=
  ⟨⟨by decide, by decide⟩, C4_negacyclic_lut_layout 5 [1, 2] 8 2 (by decide) (by decide)⟩

/-- Counterexample for C5: with table `[1, 2]`, `N = 6` and `log_t = 2`, `N` is
a multiple neither of `2 * 2 ^ log_t` nor of `2 * t` for the table length
`t = 2`, yet `negacyclic_lut` returns normally instead of panicking (ragged
trailing chunk). -/
theorem C5_counterexample :
    (negacyclic_lut 5 [1, 2] 6 2).isSome = true ∧ 6 % (2 * 2 ^ 2) ≠ 0 ∧ 6 % (2 * 2) ≠ 0 := by
  decide

/-- Claim C5 (amended): `negacyclic_lut` panics exactly when the chunk size
`coeff_count >> log_t` is zero (`chunks_mut(0)`) or the table is empty
(`&self[1..]` on an empty slice); for every other input - in particular for
every `N` that is not a multiple of `2 t` but has `N >> log_t` non-zero - it
returns an `N`-coefficient polynomial. -/
theorem C5_panic_characterization (q : ℕ) (table : List (ZMod q)) (N logt : ℕ) :
    (negacyclic_lut q table N logt = none ↔ (N >>> logt = 0 ∨ table = [])) ∧
    (N >>> logt ≠ 0 → table ≠ [] →
      ∃ L, negacyclic_lut q table N logt = some L ∧ L.length = N) := by
  constructor
  · unfold negacyclic_lut
    by_cases h : N >>> logt = 0 ∨ table = []
    · rw [if_pos h]; simp [h]
    · rw [if_neg h]; simp [h]
  · intro hhd ht
    obtain ⟨L, h1, h2, _⟩ := negacyclicLut_spec q table N logt hhd ht
    exact ⟨L, h1, h2⟩

/-- Witness for the amended C5 statement at `N = 6`, `log_t = 2`. -/
theorem C5_panic_characterization_witness :
    ((negacyclic_lut 5 [1, 2] 6 2 = none ↔ (6 >>> 2 = 0 ∨ ([1, 2] : List (ZMod 5)) = [])) ∧
      (6 >>> 2 ≠ 0 → ([1, 2] : List (ZMod 5)) ≠ [] →
        ∃ L, negacyclic_lut 5 [1, 2] 6 2 = some L ∧ L.length = 6)) ∧
    ∃ L, negacyclic_lut 5 [1, 2] 6 2 = some L ∧ L.length = 6 :=
  ⟨C5_panic_characterization 5 [1, 2] 6 2,
    (C5_panic_characterization 5 [1, 2] 6 2).2 (by decide) (by decide)⟩

theorem zipWith_add_comm (l1 l2 : List (ZMod q)) :
    List.zipWith (fun u v => u + v) l1 l2 = List.zipWith (fun u v => u + v) l2 l1 := by
  induction l1 generalizing l2 with
  | nil => cases l2 <;> rfl
  | cons x xs ih => cases l2 <;> simp [add_comm, ih]

theorem zipWith_add_assoc (l1 l2 l3 : List (ZMod q)) :
    List.zipWith (fun u v => u + v) (List.zipWith (fun u v => u + v) l1 l2) l3 =
      List.zipWith (fun u v => u + v) l1 (List.zipWith (fun u v => u + v) l2 l3) := by
  induction l1 generalizing l2 l3 with
  | nil => cases l2 <;> cases l3 <;> rfl
  | cons x xs ih => cases l2 <;> cases l3 <;> simp [add_assoc, ih]

theorem addElementWise_comm (x y : RlweCt q) : addElementWise x y = addElementWise y x := by
  unfold addElementWise
  rw [zipWith_add_comm x.a y.a, zipWith_add_comm x.b y.b]

theorem addElementWise_assoc (x y z : RlweCt q) :
    addElementWise (addElementWise x y) z = addElementWise x (addElementWise y z) := by
  unfold addElementWise
  simp only [zipWith_add_assoc]

theorem foldl_optional_add (l : List (RlweCt q)) (a : RlweCt q) :
    l.foldl (fun acc x => some (match acc with
      | none => x
      | some w => addElementWise w x)) (some a) = some (l.foldl addElementWise a) := by
  induction l generalizing a with
  | nil => rfl
  | cons x xs ih => exact ih (addElementWise a x)

theorem accumulate_eq_optional_fold (q dim : ℕ) (l : List (RlweCt q)) :
    accumulateBlindRotations q dim l =
      (l.foldl (fun acc x => some (match acc with
        | none => x
        | some w => addElementWise w x)) none).getD (zeroRlwe q dim) := by
  cases l with
  | nil => rfl
  | cons x xs =>
    show accumulateBlindRotations q dim (x :: xs) =
      (xs.foldl _ (some x)).getD (zeroRlwe q dim)
    rw [foldl_optional_add]
    rfl

/-- Claim C9: the first-level accumulator is invariant under permutations of
the clue list (element-wise RLWE addition is associative and commutative),
and the empty clue list yields the zero polynomial pair of the first-level
ring dimension. -/
theorem first_level_accumulator_abelian (q dim : ℕ) :
    (∀ (κ : Type) (br : κ → RlweCt q) (l1 l2 : List κ), l1.Perm l2 →
      accumulateBlindRotations q dim (l1.map br) =
        accumulateBlindRotations q dim (l2.map br)) ∧
    accumulateBlindRotations q dim [] = zeroRlwe q dim := by
  constructor
  · intro κ br l1 l2 hperm
    have hmap : (l1.map br).Perm (l2.map br) := hperm.map br
    rw [accumulate_eq_optional_fold, accumulate_eq_optional_fold]
    congr 1
    refine hmap.foldl_eq' ?_ none
    intro x _ y _ z
    match z with
    | none => simp only [addElementWise_comm x y]
    | some w =>
      simp only
      rw [addElementWise_assoc, addElementWise_assoc, addElementWise_comm x y]
  · rfl

/-- Witness for C9: a two-element clue list and its swap. -/
theorem first_level_accumulator_abelian_witness :
    ([1, 2] : List ℕ).Perm [2, 1] ∧
      accumulateBlindRotations 5 3 (([1, 2] : List ℕ).map fun k => ⟨[(k : ZMod 5)], [k]⟩) =
        accumulateBlindRotations 5 3 (([2, 1] : List ℕ).map fun k => ⟨[(k : ZMod 5)], [k]⟩) :=
  ⟨by decide,
    (first_level_accumulator_abelian 5 3).1 ℕ (fun k => ⟨[(k : ZMod 5)], [k]⟩) [1, 2] [2, 1]
      (by decide)⟩

theorem ilogFuel_eq_log (b : ℕ) (hb : 2 ≤ b) :
    ∀ fuel n, n ≤ fuel → ilogFuel b fuel n = Nat.log b n := by
  intro fuel
  induction fuel with
  | zero =>
    intro n hn
    have : n = 0 := by omega
    subst this
    simp [ilogFuel, Nat.log_zero_right]
  | succ fuel ih =>
    intro n hn
    show (if n < b then 0 else ilogFuel b fuel (n / b) + 1) = Nat.log b n
    by_cases h : n < b
    · rw [if_pos h, Nat.log_of_lt h]
    · rw [if_neg h]
      have hble : b ≤ n := le_of_not_lt h
      have hdiv : n / b ≤ fuel := by
        have : n / b < n := Nat.div_lt_self (by omega) (by omega)
        omega
      rw [ih (n / b) hdiv, Nat.log_of_one_lt_of_le (by omega) hble]

theorem ilog_eq_log (b n : ℕ) (hb : 2 ≤ b) : ilog b n = Nat.log b n :=
  ilogFuel_eq_log b hb n n le_rfl

theorem ceilLog2Fuel_eq_clog :
    ∀ fuel n, n ≤ fuel → ceilLog2Fuel fuel n = Nat.clog 2 n := by
  intro fuel
  induction fuel with
  | zero =>
    intro n hn
    have : n = 0 := by omega
    subst this
    simp [ceilLog2Fuel, Nat.clog_zero_right]
  | succ fuel ih =>
    intro n hn
    show (if n ≤ 1 then 0 else ceilLog2Fuel fuel ((n + 1) / 2) + 1) = Nat.clog 2 n
    by_cases h : n ≤ 1
    · rw [if_pos h]
      interval_cases n
      · simp [Nat.clog_zero_right]
      · simp [Nat.clog_one_right]
    · rw [if_neg h]
      have h2 : 1 < n := by omega
      rw [Nat.clog_of_two_le le_rfl h2]
      have hdiv : (n + 1) / 2 ≤ fuel := by omega
      rw [ih _ hdiv]
      norm_num

theorem ceilLog2_eq_clog (n : ℕ) : ceilLog2 n = Nat.clog 2 n :=
  ceilLog2Fuel_eq_clog n n le_rfl

theorem divCeil_le_iff (a b x : ℕ) (hb : 0 < b) : divCeil a b ≤ x ↔ a ≤ b * x := by
  unfold divCeil
  rw [Nat.div_le_iff_le_mul_add_pred hb]
  omega

theorem ilog_two_pow (k : ℕ) : ilog 2 (2 ^ k) = k := by
  rw [ilog_eq_log 2 (2 ^ k) le_rfl, Nat.log_pow one_lt_two]

theorem isPowerOfTwo_pow (k : ℕ) : isPowerOfTwo (2 ^ k) = true := by
  have h0 : (2 : ℕ) ^ k ≠ 0 := pow_ne_zero k (by norm_num)
  simp [isPowerOfTwo, ilog_two_pow, h0]

/-- Counterexample for C8: for the power-of-two index modulus `p = 256` and a
single payload (`N = 1`), `RetrievalParams::new` sets `index_slots_per_bucket`
to `0`, not to at least `1` as the claim asserts (whereas the
non-power-of-two branch explicitly forces a minimum of `1`). -/
theorem C8_counterexample :
    index_slots_per_bucket 256 1 = 0 ∧ ¬(1 ≤ index_slots_per_bucket 256 1) := by
  decide

/-- Claim C8 (amended): for a power-of-two modulus `p = 2 ^ k` and `N ≥ 2`,
`index_slots_per_bucket` is the least `d` with `p ^ d ≥ N` (the minimum base-p
digit count for indices in `[0, N)`); for `N ≤ 1` it is `0`, not `1`, so the
claimed lower bound of one fails there.  For a non-power-of-two modulus the
branch forces the count to at least `1` and otherwise also computes the least
`d` with `p ^ d ≥ N`. -/
theorem C8_index_slots (p N k : ℕ) :
    (p = 2 ^ k → 1 ≤ k → 2 ≤ N →
      N ≤ p ^ index_slots_per_bucket p N ∧
      ∀ e, N ≤ p ^ e → index_slots_per_bucket p N ≤ e) ∧
    (p = 2 ^ k → N ≤ 1 → index_slots_per_bucket p N = 0) ∧
    (isPowerOfTwo p = false → 2 ≤ p → 1 ≤ N →
      1 ≤ index_slots_per_bucket p N ∧ N ≤ p ^ index_slots_per_bucket p N ∧
      ∀ e, 1 ≤ e → N ≤ p ^ e → index_slots_per_bucket p N ≤ e) := by
  refine ⟨?_, ?_, ?_⟩
  · rintro rfl hk hN
    have hval : index_slots_per_bucket (2 ^ k) N = divCeil (Nat.clog 2 N) k := by
      unfold index_slots_per_bucket
      rw [if_pos (isPowerOfTwo_pow k), ceilLog2_eq_clog, ilog_two_pow]
    rw [hval]
    constructor
    · rw [← pow_mul, Nat.le_pow_iff_clog_le one_lt_two]
      exact (divCeil_le_iff _ _ _ (by omega)).mp le_rfl
    · intro e he
      rw [← pow_mul, Nat.le_pow_iff_clog_le one_lt_two] at he
      exact (divCeil_le_iff _ _ _ (by omega)).mpr he
  · rintro rfl hN
    unfold index_slots_per_bucket
    rw [if_pos (isPowerOfTwo_pow k), ceilLog2_eq_clog, ilog_two_pow]
    have hdc : divCeil 0 k = 0 := by
      unfold divCeil
      rcases k with _ | k2
      · rfl
      · exact Nat.div_eq_of_lt (by omega)
    interval_cases N
    · rw [Nat.clog_zero_right]; exact hdc
    · rw [Nat.clog_one_right]; exact hdc
  · intro hnp hp hN
    have hlog : ilog p N = Nat.log p N := ilog_eq_log p N hp
    simp only [index_slots_per_bucket, hnp, Bool.false_eq_true, if_false, hlog]
    have hple : p ^ Nat.log p N ≤ N := Nat.pow_log_le_self p (by omega)
    have hplt : N < p ^ (Nat.log p N + 1) := Nat.lt_pow_succ_log_self (by omega) N
    by_cases hcase : p ^ Nat.log p N < N
    · rw [if_pos hcase]
      have hne : Nat.log p N + 1 ≠ 0 := by omega
      rw [if_neg hne]
      refine ⟨by omega, by omega, fun e he1 he2 => ?_⟩
      by_contra hcon
      have helt : e ≤ Nat.log p N := by omega
      have := Nat.pow_le_pow_right (le_of_lt (by omega : 1 < p)) helt
      omega
    · rw [if_neg hcase]
      have heq : p ^ Nat.log p N = N := by omega
      by_cases hz : Nat.log p N = 0
      · rw [if_pos hz]
        have hN1 : N = 1 := by rw [← heq, hz, pow_zero]
        refine ⟨le_rfl, ?_, fun e he1 he2 => by omega⟩
        rw [hN1]
        exact Nat.one_le_pow _ _ (by omega)
      · rw [if_neg hz]
        refine ⟨by omega, by omega, fun e he1 he2 => ?_⟩
        rw [← heq] at he2
        exact (Nat.pow_le_pow_iff_right hp).mp he2

/-- Witness for the amended C8 statement: `p = 256 = 2 ^ 8` with `N = 1000`
(power-of-two branch, two digits needed), `N = 1` (zero slots), and the
non-power-of-two modulus `p = 10` with `N = 1000` (three digits). -/
theorem C8_index_slots_witness :
    (1000 ≤ 256 ^ index_slots_per_bucket 256 1000 ∧
      ∀ e, 1000 ≤ 256 ^ e → index_slots_per_bucket 256 1000 ≤ e) ∧
    index_slots_per_bucket 256 1 = 0 ∧
    (1 ≤ index_slots_per_bucket 10 1000 ∧ 1000 ≤ 10 ^ index_slots_per_bucket 10 1000 ∧
      ∀ e, 1 ≤ e → 1000 ≤ 10 ^ e → index_slots_per_bucket 10 1000 ≤ e) :=
  ⟨(C8_index_slots 256 1000 8).1 (by norm_num) (by norm_num) (by norm_num),
    (C8_index_slots 256 1 8).2.1 (by norm_num) (by norm_num),
    (C8_index_slots 10 1000 0).2.2 (by decide) (by norm_num) (by norm_num)⟩

theorem findPivot_none (pick : ZMod p → Bool) (M : ℕ → ℕ → ZMod p) (col : ℕ) :
    ∀ cnt start, findPivot pick M col start cnt = none →
      ∀ r, start ≤ r → r < start + cnt → pick (M r col) = false := by
  intro cnt
  induction cnt with
  | zero => intro start _ r h1 h2; omega
  | succ cnt ih =>
    intro start hnone r h1 h2
    rw [findPivot] at hnone
    by_cases hp : pick (M start col) = true
    · rw [if_pos hp] at hnone; exact absurd hnone (by simp)
    · rw [if_neg hp] at hnone
      rcases Nat.eq_or_lt_of_le h1 with rfl | hlt
      · simpa using hp
      · exact ih (start + 1) hnone r (by omega) (by omega)

theorem findPivot_some (pick : ZMod p → Bool) (M : ℕ → ℕ → ZMod p) (col : ℕ) :
    ∀ cnt start j, findPivot pick M col start cnt = some j →
      start ≤ j ∧ j < start + cnt ∧ pick (M j col) = true := by
  intro cnt
  induction cnt with
  | zero => intro start j h; exact absurd h (by rw [findPivot]; simp)
  | succ cnt ih =>
    intro start j h
    rw [findPivot] at h
    by_cases hp : pick (M start col) = true
    · rw [if_pos hp] at h
      obtain rfl : start = j := by injection h
      exact ⟨le_rfl, by omega, hp⟩
    · rw [if_neg hp] at h
      obtain ⟨h1, h2, h3⟩ := ih (start + 1) j h
      exact ⟨by omega, by omega, h3⟩

/-- Block-triangular determinant argument: with the first `i` columns in
processed form (unit diagonal, zero below), invertibility of the whole matrix
forces invertibility of the lower-right `(n-i) x (n-i)` block. -/
theorem isUnit_det_lower_block (n i : ℕ) (hin : i ≤ n) (M : ℕ → ℕ → ZMod p)
    (hdiag : ∀ k, k < i → M k k = 1)
    (hbelow : ∀ k r, k < i → k < r → r < n → M r k = 0)
    (hdet : IsUnit (matOf n M).det) :
    IsUnit (Matrix.of fun a b : Fin (n - i) => M (i + a.val) (i + b.val)).det := by
  classical
  have hni : i + (n - i) = n := by omega
  let e : Fin i ⊕ Fin (n - i) ≃ Fin n := finSumFinEquiv.trans (finCongr hni)
  have heval : ∀ s : Fin i ⊕ Fin (n - i),
      (e s).val = Sum.elim (fun a : Fin i => a.val) (fun a : Fin (n - i) => i + a.val) s := by
    rintro (a | a) <;> simp [e, finSumFinEquiv]
  let T : Matrix (Fin i) (Fin i) (ZMod p) := Matrix.of fun a b => M a.val b.val
  let X : Matrix (Fin i) (Fin (n - i)) (ZMod p) := Matrix.of fun a b => M a.val (i + b.val)
  let B : Matrix (Fin (n - i)) (Fin (n - i)) (ZMod p) :=
    Matrix.of fun a b => M (i + a.val) (i + b.val)
  have hsub : (matOf n M).submatrix e e = Matrix.fromBlocks T X 0 B := by
    ext s t
    rcases s with a | a <;> rcases t with b | b <;>
      simp only [Matrix.submatrix_apply, matOf, Matrix.of_apply, heval, Sum.elim_inl,
        Sum.elim_inr, Matrix.fromBlocks_apply₁₁, Matrix.fromBlocks_apply₁₂,
        Matrix.fromBlocks_apply₂₁, Matrix.fromBlocks_apply₂₂, Matrix.zero_apply, T, X, B]
    exact hbelow b.val (i + a.val) b.isLt (by omega) (by omega)
  have hdet2 : (matOf n M).det = T.det * B.det := by
    rw [← Matrix.det_submatrix_equiv_self e (matOf n M), hsub,
      Matrix.det_fromBlocks_zero₂₁]
  have hT : T.det = 1 := by
    have htri : T.BlockTriangular id := by
      intro a b hab
      exact hbelow b.val a.val b.isLt hab (by omega)
    rw [Matrix.det_of_upperTriangular htri]
    have : ∀ a : Fin i, T a a = 1 := fun a => hdiag a.val a.isLt
    simp [this]
  rw [hdet2, hT, one_mul] at hdet
  exact hdet

theorem matOf_swapRows (n i j : ℕ) (hi : i < n) (hj : j < n) (st : GState p) :
    matOf n (swapRows st i j).M =
      (matOf n st.M).submatrix (Equiv.swap ⟨i, hi⟩ ⟨j, hj⟩) id := by
  ext r c
  simp only [matOf, Matrix.of_apply, swapRows, Matrix.submatrix_apply, id]
  rcases eq_or_ne r.val i with h1 | h1
  · rw [if_pos h1]
    have hr : r = ⟨i, hi⟩ := Fin.ext h1
    rw [hr, Equiv.swap_apply_left]
  · rw [if_neg h1]
    rcases eq_or_ne r.val j with h2 | h2
    · rw [if_pos h2]
      have hr : r = ⟨j, hj⟩ := Fin.ext h2
      rw [hr, Equiv.swap_apply_right]
    · rw [if_neg h2, Equiv.swap_apply_of_ne_of_ne]
      · simp [Fin.ext_iff, h1]
      · simp [Fin.ext_iff, h2]

theorem FwdInv_swap (n i j : ℕ) (x : ℕ → PayloadV p) (st : GState p)
    (hij : i ≤ j) (hne : i ≠ j) (hjn : j < n)
    (hInv : FwdInv n i x st) : FwdInv n i x (swapRows st i j) := by
  obtain ⟨hd, hb, hc, hdet⟩ := hInv
  have hin : i < n := lt_of_le_of_lt hij hjn
  refine ⟨?_, ?_, ?_, ?_⟩
  · intro k hk
    show (if k = i then st.M j k else if k = j then st.M i k else st.M k k) = 1
    rw [if_neg (by omega), if_neg (by omega)]
    exact hd k hk
  · intro k r hk hkr hrn
    show (if r = i then st.M j k else if r = j then st.M i k else st.M r k) = 0
    rcases eq_or_ne r i with rfl | h1
    · rw [if_pos rfl]
      exact hb k j hk (by omega) hjn
    · rw [if_neg h1]
      rcases eq_or_ne r j with rfl | h2
      · rw [if_pos rfl]
        exact hb k i hk (by omega) hin
      · rw [if_neg h2]
        exact hb k r hk hkr hrn
  · intro r hrn
    have hB : (swapRows st i j).b r =
        if r = i then st.b j else if r = j then st.b i else st.b r := rfl
    have hM : ∀ c, (swapRows st i j).M r c =
        if r = i then st.M j c else if r = j then st.M i c else st.M r c := fun _ => rfl
    rw [hB]
    rcases eq_or_ne r i with rfl | h1
    · rw [if_pos rfl, hc j hjn]
      refine Finset.sum_congr rfl fun c _ => ?_
      rw [hM c, if_pos rfl]
    · rw [if_neg h1]
      rcases eq_or_ne r j with rfl | h2
      · rw [if_pos rfl, hc i hin]
        refine Finset.sum_congr rfl fun c _ => ?_
        rw [hM c, if_neg h1, if_pos rfl]
      · rw [if_neg h2, hc r hrn]
        refine Finset.sum_congr rfl fun c _ => ?_
        rw [hM c, if_neg h1, if_neg h2]
  · rw [matOf_swapRows n i j hin hjn st, Matrix.det_permute,
      Equiv.Perm.sign_swap (by simp [Fin.ext_iff, hne])]
    simpa using hdet.neg

theorem FwdInv_normalize (n i : ℕ) (x : ℕ → PayloadV p) (st : GState p) (hin : i < n)
    (w : ZMod p) (hvw : st.M i i * w = 1) (hInv : FwdInv n i x st) :
    FwdInv n i x (normalizeRow n i w st) ∧ (normalizeRow n i w st).M i i = 1 := by
  obtain ⟨hd, hb, hc, hdet⟩ := hInv
  have hMrow : ∀ c, c < n → (normalizeRow n i w st).M i c = st.M i c * w := by
    intro c hcn
    show (if i = i then
        (if c = i then 1 else if i + 1 ≤ c ∧ c < n then st.M i c * w else st.M i c)
      else st.M i c) = st.M i c * w
    rw [if_pos rfl]
    rcases eq_or_ne c i with rfl | hci
    · rw [if_pos rfl, ← hvw]
    · rw [if_neg hci]
      rcases Nat.lt_or_ge c i with hlt | hge
      · rw [if_neg (by omega), hb c i hlt hlt hin, zero_mul]
      · rw [if_pos ⟨by omega, hcn⟩]
  have hMother : ∀ r c, r ≠ i → (normalizeRow n i w st).M r c = st.M r c := by
    intro r c hr
    show (if r = i then _ else st.M r c) = st.M r c
    rw [if_neg hr]
  have hBi : (normalizeRow n i w st).b i = w • st.b i := by
    show (if i = i then w • st.b i else st.b i) = w • st.b i
    rw [if_pos rfl]
  have hBother : ∀ r, r ≠ i → (normalizeRow n i w st).b r = st.b r := by
    intro r hr
    show (if r = i then _ else st.b r) = st.b r
    rw [if_neg hr]
  have hMii : (normalizeRow n i w st).M i i = 1 := by
    show (if i = i then (if i = i then 1 else _) else _) = 1
    rw [if_pos rfl, if_pos rfl]
  refine ⟨⟨?_, ?_, ?_, ?_⟩, hMii⟩
  · intro k hk
    rw [hMother k k (by omega)]
    exact hd k hk
  · intro k r hk hkr hrn
    rcases eq_or_ne r i with rfl | hr
    · rw [hMrow k (by omega), hb k r hk hkr hrn, zero_mul]
    · rw [hMother r k hr]
      exact hb k r hk hkr hrn
  · intro r hrn
    rcases eq_or_ne r i with rfl | hr
    · rw [hBi, hc r hrn, Finset.smul_sum]
      refine Finset.sum_congr rfl fun c hcmem => ?_
      rw [hMrow c (Finset.mem_range.mp hcmem), smul_smul, mul_comm w (st.M r c)]
    · rw [hBother r hr, hc r hrn]
      refine Finset.sum_congr rfl fun c _ => ?_
      rw [hMother r c hr]
  · have hupd : matOf n (normalizeRow n i w st).M =
        (matOf n st.M).updateRow ⟨i, hin⟩ (w • matOf n st.M ⟨i, hin⟩) := by
      ext r c
      rcases eq_or_ne r (⟨i, hin⟩ : Fin n) with rfl | hr
      · rw [Matrix.updateRow_self]
        show (normalizeRow n i w st).M i c.val = (w • matOf n st.M ⟨i, hin⟩) c
        rw [hMrow c.val c.isLt]
        simp [matOf, mul_comm]
      · rw [Matrix.updateRow_ne hr]
        show (normalizeRow n i w st).M r.val c.val = st.M r.val c.val
        exact hMother r.val c.val (by simpa [Fin.ext_iff] using hr)
    rw [hupd, Matrix.det_updateRow_smul, Matrix.updateRow_eq_self]
    exact (isUnit_of_mul_eq_one w (st.M i i) (by rw [mul_comm]; exact hvw)).mul hdet

theorem elimRow_M (n i r : ℕ) (st : GState p) (hrowi : ∀ c, c < i → st.M i c = 0) :
    ∀ r2 c2, c2 < n →
      (elimRow n i r st).M r2 c2 =
        if r2 = r then st.M r c2 - st.M i c2 * st.M r i else st.M r2 c2 := by
  intro r2 c2 hc2
  unfold elimRow
  by_cases hcc : st.M r i = 0
  · rw [if_pos hcc]
    rcases eq_or_ne r2 r with rfl | hr2
    · rw [if_pos rfl, hcc, mul_zero, sub_zero]
    · rw [if_neg hr2]
  · rw [if_neg hcc]
    show (if r2 = r ∧ i ≤ c2 ∧ c2 < n then st.M r c2 - st.M i c2 * st.M r i
      else st.M r2 c2) = _
    rcases eq_or_ne r2 r with rfl | hr2
    · rw [if_pos rfl]
      rcases Nat.lt_or_ge c2 i with hlt | hge
      · rw [if_neg (by omega), hrowi c2 hlt, zero_mul, sub_zero]
      · rw [if_pos ⟨rfl, hge, hc2⟩]
    · rw [if_neg (by tauto), if_neg hr2]

theorem elimRow_b (n i r : ℕ) (st : GState p) :
    ∀ r2, (elimRow n i r st).b r2 =
      if r2 = r then st.b r - st.M r i • st.b i else st.b r2 := by
  intro r2
  unfold elimRow
  by_cases hcc : st.M r i = 0
  · rw [if_pos hcc]
    rcases eq_or_ne r2 r with rfl | hr2
    · rw [if_pos rfl, hcc, zero_smul, sub_zero]
    · rw [if_neg hr2]
  · rw [if_neg hcc]

/-- Eliminating the rows below pivot `i` turns the step-`i` invariant (with
normalized pivot) into the step-`i+1` invariant. -/
theorem elimRows_establish (n i : ℕ) (x : ℕ → PayloadV p) (hin : i < n) :
    ∀ cnt r st, i < r → r + cnt = n →
      (∀ k, k ≤ i → st.M k k = 1) →
      (∀ k r2, k < i → k < r2 → r2 < n → st.M r2 k = 0) →
      (∀ r2, i < r2 → r2 < r → st.M r2 i = 0) →
      (∀ r2, r2 < n → st.b r2 = ∑ c ∈ Finset.range n, st.M r2 c • x c) →
      IsUnit (matOf n st.M).det →
      FwdInv n (i + 1) x (elimRows n i r cnt st) := by
  intro cnt
  induction cnt with
  | zero =>
    intro r st hir hrn hd hb hpiv hc hdet
    show FwdInv n (i + 1) x st
    refine ⟨fun k hk => hd k (by omega), ?_, hc, hdet⟩
    intro k r2 hk hkr2 hr2n
    rcases Nat.lt_or_ge k i with hki | hki
    · exact hb k r2 hki hkr2 hr2n
    · have hkeq : k = i := by omega
      subst hkeq
      exact hpiv r2 hkr2 (by omega)
  | succ cnt ih =>
    intro r st hir hrn hd hb hpiv hc hdet
    show FwdInv n (i + 1) x (elimRows n i (r + 1) cnt (elimRow n i r st))
    have hrn' : r < n := by omega
    have hrowi : ∀ c, c < i → st.M i c = 0 := fun c hci => hb c i hci hci hin
    have hM := elimRow_M n i r st hrowi
    have hB := elimRow_b n i r st
    refine ih (r + 1) (elimRow n i r st) (by omega) (by omega) ?_ ?_ ?_ ?_ ?_
    · intro k hk
      rw [hM k k (by omega), if_neg (by omega)]
      exact hd k hk
    · intro k r2 hk hkr2 hr2n
      rw [hM r2 k (by omega)]
      rcases eq_or_ne r2 r with rfl | hr2
      · rw [if_pos rfl, hb k r2 hk (by omega) hr2n, hrowi k hk, zero_mul, sub_zero]
      · rw [if_neg hr2]
        exact hb k r2 hk hkr2 hr2n
    · intro r2 hir2 hr2lt
      rw [hM r2 i hin]
      rcases eq_or_ne r2 r with rfl | hr2
      · rw [if_pos rfl, hd i le_rfl, one_mul, sub_self]
      · rw [if_neg hr2]
        exact hpiv r2 hir2 (by omega)
    · intro r2 hr2n
      rw [hB r2]
      rcases eq_or_ne r2 r with rfl | hr2
      · rw [if_pos rfl, hc r2 hr2n, hc i hin, Finset.smul_sum]
        rw [← Finset.sum_sub_distrib]
        refine Finset.sum_congr rfl fun c hcmem => ?_
        rw [hM r2 c (Finset.mem_range.mp hcmem), if_pos rfl, smul_smul, sub_smul,
          mul_comm (st.M r2 i) (st.M i c)]
      · rw [if_neg hr2, hc r2 hr2n]
        refine Finset.sum_congr rfl fun c hcmem => ?_
        rw [hM r2 c (Finset.mem_range.mp hcmem), if_neg hr2]
    · have hupd : matOf n (elimRow n i r st).M =
          (matOf n st.M).updateRow ⟨r, hrn'⟩
            (matOf n st.M ⟨r, hrn'⟩ + (-(st.M r i)) • matOf n st.M ⟨i, hin⟩) := by
        ext r2 c
        rcases eq_or_ne r2 (⟨r, hrn'⟩ : Fin n) with rfl | hr2
        · rw [Matrix.updateRow_self]
          show (elimRow n i r st).M r c.val = _
          rw [hM r c.val c.isLt, if_pos rfl]
          simp [matOf]
          ring
        · rw [Matrix.updateRow_ne hr2]
          show (elimRow n i r st).M r2.val c.val = st.M r2.val c.val
          rw [hM r2.val c.val c.isLt, if_neg (by simpa [Fin.ext_iff] using hr2)]
      rw [hupd, Matrix.det_updateRow_add_smul_self]
      · exact hdet
      · simp [Fin.ext_iff]
        omega

/-- The forward elimination loop succeeds on an invertible matrix and
produces the unit-upper-triangular invariant at step `n`, provided `pick`
finds pivots in invertible matrices and `inv` produces true inverses for
picked entries. -/
theorem forward_correct (pick : ZMod p → Bool) (inv : ZMod p → Option (ZMod p))
    (n : ℕ) (x : ℕ → PayloadV p)
    (Hpick : ∀ (m : ℕ) (hm : 0 < m) (B : Matrix (Fin m) (Fin m) (ZMod p)),
      IsUnit B.det → ∃ r : Fin m, pick (B r ⟨0, hm⟩) = true)
    (Hinv : ∀ v : ZMod p, pick v = true → v ≠ 1 → ∃ w, inv v = some w ∧ v * w = 1) :
    ∀ fuel i st, i + fuel = n → FwdInv n i x st →
      ∃ st2, forward pick inv n n i fuel st = .next st2 ∧ FwdInv n n x st2 := by
  intro fuel
  induction fuel with
  | zero =>
    intro i st hi hInv
    obtain rfl : i = n := by omega
    exact ⟨st, rfl, hInv⟩
  | succ fuel ih =>
    intro i st hi hInv
    have hin : i < n := by omega
    obtain ⟨hd, hb, hc, hdet⟩ := hInv
    cases hfp : findPivot pick st.M i i (n - i) with
    | none =>
      exfalso
      have hall := findPivot_none pick st.M i (n - i) i hfp
      have hBdet := isUnit_det_lower_block n i (by omega) st.M hd hb hdet
      obtain ⟨r, hr⟩ := Hpick (n - i) (by omega) _ hBdet
      have hfail := hall (i + r.val) (by omega) (by omega)
      simp only [Matrix.of_apply] at hr
      rw [Nat.add_zero] at hr
      rw [hfail] at hr
      exact Bool.false_ne_true hr
    | some j =>
      obtain ⟨hij, hjlt, hpickj⟩ := findPivot_some pick st.M i (n - i) i j hfp
      have hjn : j < n := by omega
      set st1 := if i = j then st else swapRows st i j with hst1
      have hInv1 : FwdInv n i x st1 := by
        rw [hst1]
        by_cases hieq : i = j
        · rw [if_pos hieq]
          exact ⟨hd, hb, hc, hdet⟩
        · rw [if_neg hieq]
          exact FwdInv_swap n i j x st hij hieq hjn ⟨hd, hb, hc, hdet⟩
      have hst1ii : st1.M i i = st.M j i := by
        rw [hst1]
        by_cases hieq : i = j
        · rw [if_pos hieq, hieq]
        · rw [if_neg hieq]
          show (if i = i then st.M j i else _) = st.M j i
          rw [if_pos rfl]
      have hpick1 : pick (st1.M i i) = true := by rw [hst1ii]; exact hpickj
      have hnorm : ∃ st2, forwardStepNorm inv n i st1 = some st2 ∧
          FwdInv n i x st2 ∧ st2.M i i = 1 := by
        unfold forwardStepNorm
        by_cases hv1 : st1.M i i = 1
        · rw [if_pos hv1]
          exact ⟨st1, rfl, hInv1, hv1⟩
        · rw [if_neg hv1]
          obtain ⟨w, hw, hvw⟩ := Hinv _ hpick1 hv1
          rw [hw]
          obtain ⟨hI2, hMii2⟩ := FwdInv_normalize n i x st1 hin w hvw hInv1
          exact ⟨normalizeRow n i w st1, rfl, hI2, hMii2⟩
      obtain ⟨st2, hns, hInv2, hdiag2⟩ := hnorm
      obtain ⟨hd2, hb2, hc2, hdet2⟩ := hInv2
      have hred : forward pick inv n n i (fuel + 1) st =
          (if fuel = 0 then .next st2
            else forward pick inv n n (i + 1) fuel
              (elimRows n i (i + 1) (n - (i + 1)) st2)) := by
        simp only [forward, hfp, ← hst1, hns]
      rw [hred]
      by_cases hf0 : fuel = 0
      · rw [if_pos hf0]
        refine ⟨st2, rfl, ⟨?_, ?_, hc2, hdet2⟩⟩
        · intro k hk
          rcases Nat.lt_or_ge k i with hki | hki
          · exact hd2 k hki
          · have : k = i := by omega
            subst this
            exact hdiag2
        · intro k r2 hk hkr2 hr2n
          have hki : k < i := by omega
          exact hb2 k r2 hki hkr2 hr2n
      · rw [if_neg hf0]
        refine ih (i + 1) (elimRows n i (i + 1) (n - (i + 1)) st2) (by omega) ?_
        refine elimRows_establish n i x hin (n - (i + 1)) (i + 1) st2 (by omega) (by omega)
          ?_ hb2 ?_ hc2 hdet2
        · intro k hk
          rcases Nat.lt_or_ge k i with hki | hki
          · exact hd2 k hki
          · have : k = i := by omega
            subst this
            exact hdiag2
        · intro r2 h1 h2
          omega

theorem BackInv_row_solved (n col : ℕ) (x : ℕ → PayloadV p) (st : GState p)
    (hI : BackInv n col x st) (hcol : col < n) : st.b col = x col := by
  obtain ⟨upT, diag, combLow, solvedHigh, cleared⟩ := hI
  rw [combLow col le_rfl hcol]
  rw [Finset.sum_eq_single col]
  · rw [diag col hcol, one_smul]
  · intro c hcmem hcne
    have hcn := Finset.mem_range.mp hcmem
    rcases Nat.lt_or_ge c col with hlt | hge
    · rw [upT c col hlt hcol, zero_smul]
    · rw [cleared col c le_rfl (by omega) hcn, zero_smul]
  · intro habs
    exact absurd (Finset.mem_range.mpr hcol) habs

theorem backSubst_solves (n : ℕ) (x : ℕ → PayloadV p) :
    ∀ col st, col < n → BackInv n col x st →
      ∀ r, r < n → (backSubst col st).b r = x r := by
  intro col
  induction col with
  | zero =>
    intro st hcol hI r hrn
    show st.b r = x r
    rcases Nat.eq_zero_or_pos r with rfl | hr0
    · exact BackInv_row_solved n 0 x st hI hcol
    · exact hI.solvedHigh r hr0 hrn
  | succ col ih =>
    intro st hcol hI r hrn
    obtain ⟨upT, diag, combLow, solvedHigh, cleared⟩ := hI
    have hbcol : st.b (col + 1) = x (col + 1) :=
      BackInv_row_solved n (col + 1) x st ⟨upT, diag, combLow, solvedHigh, cleared⟩ hcol
    show (backSubst col (backSubstCol (col + 1) st)).b r = x r
    refine ih (backSubstCol (col + 1) st) (by omega) ?_ r hrn
    have hM : ∀ r2 c2, (backSubstCol (col + 1) st).M r2 c2 =
        if c2 = col + 1 ∧ r2 < col + 1 then 0 else st.M r2 c2 := fun _ _ => rfl
    have hB : ∀ r2, (backSubstCol (col + 1) st).b r2 =
        if r2 < col + 1 then st.b r2 - st.M r2 (col + 1) • st.b (col + 1)
        else st.b r2 := fun _ => rfl
    refine ⟨?_, ?_, ?_, ?_, ?_⟩
    · intro k r2 hkr2 hr2n
      rw [hM r2 k]
      rcases Decidable.em (k = col + 1 ∧ r2 < col + 1) with h | h
      · rw [if_pos h]
      · rw [if_neg h]
        exact upT k r2 hkr2 hr2n
    · intro k hkn
      rw [hM k k, if_neg (by omega)]
      exact diag k hkn
    · intro r2 hr2le hr2n
      rw [hB r2, if_pos (by omega), combLow r2 (by omega) hr2n, hbcol]
      have hcoln : col + 1 < n := hcol
      rw [Finset.sum_eq_add_sum_diff_singleton (Finset.mem_range.mpr hcoln)
        (fun c => st.M r2 c • x c)]
      rw [Finset.sum_eq_add_sum_diff_singleton (Finset.mem_range.mpr hcoln)
        (fun c => (backSubstCol (col + 1) st).M r2 c • x c)]
      rw [hM r2 (col + 1), if_pos ⟨rfl, by omega⟩, zero_smul, zero_add]
      have hrest : ∑ c ∈ Finset.range n \ {col + 1}, (backSubstCol (col + 1) st).M r2 c • x c
          = ∑ c ∈ Finset.range n \ {col + 1}, st.M r2 c • x c := by
        refine Finset.sum_congr rfl fun c hcmem => ?_
        have hcne : c ≠ col + 1 := by
          intro h
          rw [h] at hcmem
          simp at hcmem
        rw [hM r2 c, if_neg (by tauto)]
      rw [hrest]
      abel
    · intro r2 hr2gt hr2n
      rw [hB r2]
      rcases eq_or_ne r2 (col + 1) with rfl | hne
      · rw [if_neg (by omega)]
        exact hbcol
      · rw [if_neg (by omega)]
        exact solvedHigh r2 (by omega) hr2n
    · intro r2 c hr2le hcgt hcn
      rw [hM r2 c]
      rcases eq_or_ne c (col + 1) with rfl | hne
      · rw [if_pos ⟨rfl, by omega⟩]
      · rw [if_neg (by tauto)]
        exact cleared r2 c (by omega) (by omega) hcn

/-- Main correctness of the solver skeleton: on a square invertible matrix
`A` and combined payloads `A * x`, the solver returns exactly `x`. -/
theorem gaussSolve_correct (pick : ZMod p → Bool) (inv : ZMod p → Option (ZMod p))
    (Hpick : ∀ (m : ℕ) (hm : 0 < m) (B : Matrix (Fin m) (Fin m) (ZMod p)),
      IsUnit B.det → ∃ r : Fin m, pick (B r ⟨0, hm⟩) = true)
    (Hinv : ∀ v : ZMod p, pick v = true → v ≠ 1 → ∃ w, inv v = some w ∧ v * w = 1)
    (n : ℕ) (A : ℕ → ℕ → ZMod p) (x : ℕ → PayloadV p)
    (hA : IsUnit (matOf n A).det) :
    gaussSolve pick inv n n A (combinedPayloads n A x) = .ok ((List.range n).map x) := by
  have hInit : FwdInv n 0 x ⟨A, combinedPayloads n A x⟩ :=
    ⟨fun k hk => absurd hk (Nat.not_lt_zero k),
     fun k r hk _ _ => absurd hk (Nat.not_lt_zero k),
     fun r _ => rfl, hA⟩
  obtain ⟨st2, hfw, hI⟩ := forward_correct pick inv n x Hpick Hinv n 0
    ⟨A, combinedPayloads n A x⟩ (by omega) hInit
  unfold gaussSolve
  rw [if_neg (lt_irrefl n), hfw]
  show SolveOutcome.ok ((List.range n).map (backSubst (n - 1) st2).b) = _
  congr 1
  rcases Nat.eq_zero_or_pos n with rfl | hn
  · rfl
  · refine List.map_congr_left fun r hr => ?_
    have hrn := List.mem_range.mp hr
    obtain ⟨hd, hb, hc, _⟩ := hI
    refine backSubst_solves n x (n - 1) st2 (by omega) ⟨?_, ?_, ?_, ?_, ?_⟩ r hrn
    · intro k r2 hkr2 hr2n
      exact hb k r2 (by omega) hkr2 hr2n
    · intro k hkn
      exact hd k hkn
    · intro r2 _ hr2n
      exact hc r2 hr2n
    · intro r2 hgt hr2n
      omega
    · intro r2 c _ hgt hcn
      omega

set_option maxRecDepth 10000 in
theorem table256_correct : ∀ v : ZMod 256, v.val % 2 = 1 →
    v * ((INV_MOD_256.getD v.val 0 : ℕ) : ZMod 256) = 1 := by decide

set_option maxRecDepth 10000 in
theorem table257_correct : ∀ v : ZMod 257, v ≠ 0 →
    v * ((INV_MOD_257.getD v.val 0 : ℕ) : ZMod 257) = 1 := by decide

/-- Invertibility over `ZMod 256` forces an odd entry in the first column:
otherwise the reduction mod 2 has a zero column and a zero determinant. -/
theorem pick256_complete (m : ℕ) (hm : 0 < m) (B : Matrix (Fin m) (Fin m) (ZMod 256))
    (hdet : IsUnit B.det) : ∃ r : Fin m, ((B r ⟨0, hm⟩).val % 2 == 1) = true := by
  by_contra hno
  push_neg at hno
  have hzero : ∀ r : Fin m, (B r ⟨0, hm⟩).val % 2 = 0 := by
    intro r
    have h := hno r
    simp only [ne_eq, beq_iff_eq] at h
    omega
  have hdvd : (2 : ℕ) ∣ 256 := by norm_num
  let φ : ZMod 256 →+* ZMod 2 := ZMod.castHom hdvd (ZMod 2)
  have hcol : ∀ r : Fin m, (B.map φ) r ⟨0, hm⟩ = 0 := by
    intro r
    show φ (B r ⟨0, hm⟩) = 0
    rw [ZMod.castHom_apply, ← ZMod.natCast_val]
    exact (ZMod.natCast_zmod_eq_zero_iff_dvd _ 2).mpr
      (Nat.dvd_of_mod_eq_zero (hzero r))
  have hdet0 : (B.map φ).det = 0 := Matrix.det_eq_zero_of_column_eq_zero ⟨0, hm⟩ hcol
  have hunit : IsUnit (φ B.det) := hdet.map φ
  rw [RingHom.map_det, RingHom.mapMatrix_apply, hdet0] at hunit
  exact not_isUnit_zero hunit

/-- Over a ring where the pivot test is non-vanishing, an invertible matrix
has a non-zero entry in the first column. -/
theorem pick_nonzero_complete (q : ℕ) [Nontrivial (ZMod q)] (m : ℕ) (hm : 0 < m)
    (B : Matrix (Fin m) (Fin m) (ZMod q)) (hdet : IsUnit B.det) :
    ∃ r : Fin m, decide (B r ⟨0, hm⟩ ≠ 0) = true := by
  by_contra hno
  push_neg at hno
  have hzero : ∀ r : Fin m, B r ⟨0, hm⟩ = 0 := by
    intro r
    have h := hno r
    rcases Decidable.em (B r ⟨0, hm⟩ = 0) with h0 | h0
    · exact h0
    · exact absurd (decide_eq_true h0) h
  rw [Matrix.det_eq_zero_of_column_eq_zero ⟨0, hm⟩ hzero] at hdet
  exact not_isUnit_zero hdet

/-- For a prime modulus, the extended-gcd inverse of a non-zero pivot always
exists and is a true inverse (`assert_eq!(gcd, 1)` cannot fire). -/
theorem inv_gcd_complete (q : ℕ) (hq : q.Prime) :
    ∀ v : ZMod q, decide (v ≠ 0) = true → v ≠ 1 →
      ∃ w, (if Nat.gcd v.val q = 1 then some v⁻¹ else none) = some w ∧ v * w = 1 := by
  intro v hv _
  haveI : Fact q.Prime := ⟨hq⟩
  haveI : NeZero q := ⟨hq.ne_zero⟩
  have hvne : v ≠ 0 := of_decide_eq_true hv
  have hval : v.val ≠ 0 := by
    intro h0
    exact hvne (by rwa [ZMod.val_eq_zero] at h0)
  have hlt : v.val < q := ZMod.val_lt v
  have hgcdgen : ∀ a : ℕ, a ≠ 0 → a < q → Nat.gcd a q = 1 := by
    intro a ha hlt2
    have hd : Nat.gcd a q ∣ q := Nat.gcd_dvd_right a q
    rcases Nat.Prime.eq_one_or_self_of_dvd hq _ hd with h1 | hqq
    · exact h1
    · exfalso
      have hdl : q ∣ a := by
        rw [← hqq]
        exact Nat.gcd_dvd_left a q
      have := Nat.le_of_dvd (Nat.pos_of_ne_zero ha) hdl
      omega
  have hgcd : Nat.gcd v.val q = 1 := hgcdgen v.val hval hlt
  rw [if_pos hgcd]
  refine ⟨v⁻¹, rfl, ?_⟩
  rw [ZMod.mul_inv_eq_gcd, hgcd, Nat.cast_one]

/-- Claim C1: for each of the three solvers, applying it to a square
invertible matrix `A` (invertible over `ZMod 256`, over `ZMod 257`, or over a
prime modulus respectively) together with the combined payloads `A * x`
returns `Ok` with exactly the payload vector `x`, entries in order. -/
theorem solver_roundtrip :
    (∀ (n : ℕ) (A : ℕ → ℕ → ZMod 256) (x : ℕ → PayloadV 256),
      IsUnit (matOf n A).det →
      solve_matrix_mod_256 n n A (combinedPayloads n A x) = .ok ((List.range n).map x)) ∧
    (∀ (n : ℕ) (A : ℕ → ℕ → ZMod 257) (x : ℕ → PayloadV 257),
      IsUnit (matOf n A).det →
      solve_matrix_mod_257 n n A (combinedPayloads n A x) = .ok ((List.range n).map x)) ∧
    (∀ (q n : ℕ), q.Prime → ∀ (A : ℕ → ℕ → ZMod q) (x : ℕ → PayloadV q),
      IsUnit (matOf n A).det →
      solve_matrix q n n A (combinedPayloads n A x) = .ok ((List.range n).map x)) := by
  refine ⟨?_, ?_, ?_⟩
  · intro n A x hA
    unfold solve_matrix_mod_256
    refine gaussSolve_correct _ _ pick256_complete ?_ n A x hA
    intro v hp _
    exact ⟨_, rfl, table256_correct v (by simpa using hp)⟩
  · intro n A x hA
    haveI : Fact (1 < 257) := ⟨by norm_num⟩
    unfold solve_matrix_mod_257
    refine gaussSolve_correct _ _ (pick_nonzero_complete 257) ?_ n A x hA
    intro v hp _
    exact ⟨_, rfl, table257_correct v (of_decide_eq_true hp)⟩
  · intro q n hq A x hA
    haveI : Fact q.Prime := ⟨hq⟩
    unfold solve_matrix
    exact gaussSolve_correct _ _ (pick_nonzero_complete q) (inv_gcd_complete q hq) n A x hA

/-- Witness for C1: the identity system of size one, for each solver. -/
theorem solver_roundtrip_witness :
    (solve_matrix_mod_256 1 1 (fun _ _ => 1)
        (combinedPayloads 1 (fun _ _ => 1) (fun _ _ => 0)) =
      .ok ((List.range 1).map (fun _ _ => (0 : ZMod 256)))) ∧
    (solve_matrix_mod_257 1 1 (fun _ _ => 1)
        (combinedPayloads 1 (fun _ _ => 1) (fun _ _ => 0)) =
      .ok ((List.range 1).map (fun _ _ => (0 : ZMod 257)))) ∧
    (solve_matrix 2 1 1 (fun _ _ => 1)
        (combinedPayloads 1 (fun _ _ => 1) (fun _ _ => 0)) =
      .ok ((List.range 1).map (fun _ _ => (0 : ZMod 2)))) :=
  ⟨solver_roundtrip.1 1 (fun _ _ => 1) (fun _ _ => 0)
      (by simp [matOf, Matrix.det_fin_one]),
    solver_roundtrip.2.1 1 (fun _ _ => 1) (fun _ _ => 0)
      (by simp [matOf, Matrix.det_fin_one]),
    solver_roundtrip.2.2 2 1 Nat.prime_two (fun _ _ => 1) (fun _ _ => 0)
      (by simp [matOf, Matrix.det_fin_one])⟩

/-- Total inverse functions make the forward loop panic-free. -/
theorem forward_no_panic (pick : ZMod p → Bool) (inv : ZMod p → Option (ZMod p))
    (hti : ∀ v, inv v ≠ none) (R C : ℕ) :
    ∀ fuel i st, forward pick inv R C i fuel st ≠ .panicNoInverse := by
  intro fuel
  induction fuel with
  | zero => intro i st h; exact absurd h (by rw [forward]; simp)
  | succ fuel ih =>
    intro i st h
    rcases hfp : findPivot pick st.M i i (R - i) with _ | j
    · simp only [forward, hfp] at h
      exact absurd h (by simp)
    · rcases hns : forwardStepNorm inv C i (if i = j then st else swapRows st i j)
        with _ | st2
      · unfold forwardStepNorm at hns
        by_cases hv : (if i = j then st else swapRows st i j).M i i = 1
        · rw [if_pos hv] at hns
          exact absurd hns (by simp)
        · rw [if_neg hv] at hns
          rcases hiv : inv ((if i = j then st else swapRows st i j).M i i) with _ | w
          · exact hti _ hiv
          · rw [hiv] at hns
            exact absurd hns (by simp)
      · simp only [forward, hfp, hns] at h
        by_cases hf : fuel = 0
        · rw [if_pos hf] at h
          exact absurd h (by simp)
        · rw [if_neg hf] at h
          exact ih (i + 1) _ h

theorem findPivot_all_false (pick : ZMod p → Bool) (M : ℕ → ℕ → ZMod p) (col : ℕ) :
    ∀ cnt start, (∀ r, start ≤ r → r < start + cnt → pick (M r col) = false) →
      findPivot pick M col start cnt = none := by
  intro cnt
  induction cnt with
  | zero => intro start _; rw [findPivot]
  | succ cnt ih =>
    intro start hall
    rw [findPivot, if_neg (by rw [hall start le_rfl (by omega)]; simp)]
    exact ih (start + 1) fun r h1 h2 => hall r (by omega) (by omega)

theorem swapRows_shape (n i j : ℕ) (st : GState p) (hij : i ≤ j) (hne : i ≠ j)
    (hjn : j < n)
    (hd : ∀ k, k < i → st.M k k = 1)
    (hb : ∀ k r, k < i → k < r → r < n → st.M r k = 0) :
    (∀ k, k < i → (swapRows st i j).M k k = 1) ∧
    (∀ k r, k < i → k < r → r < n → (swapRows st i j).M r k = 0) ∧
    (matOf n (swapRows st i j).M).det = -(matOf n st.M).det := by
  have hin : i < n := lt_of_le_of_lt hij hjn
  refine ⟨?_, ?_, ?_⟩
  · intro k hk
    show (if k = i then st.M j k else if k = j then st.M i k else st.M k k) = 1
    rw [if_neg (by omega), if_neg (by omega)]
    exact hd k hk
  · intro k r hk hkr hrn
    show (if r = i then st.M j k else if r = j then st.M i k else st.M r k) = 0
    rcases eq_or_ne r i with rfl | h1
    · rw [if_pos rfl]
      exact hb k j hk (by omega) hjn
    · rw [if_neg h1]
      rcases eq_or_ne r j with rfl | h2
      · rw [if_pos rfl]
        exact hb k i hk (by omega) hin
      · rw [if_neg h2]
        exact hb k r hk hkr hrn
  · rw [matOf_swapRows n i j hin hjn st, Matrix.det_permute,
      Equiv.Perm.sign_swap (by simp [Fin.ext_iff, hne])]
    simp

theorem normalizeRow_shape (n i : ℕ) (st : GState p) (hin : i < n)
    (w : ZMod p) (hvw : st.M i i * w = 1)
    (hd : ∀ k, k < i → st.M k k = 1)
    (hb : ∀ k r, k < i → k < r → r < n → st.M r k = 0) :
    (∀ k, k < i → (normalizeRow n i w st).M k k = 1) ∧
    (∀ k r, k < i → k < r → r < n → (normalizeRow n i w st).M r k = 0) ∧
    (normalizeRow n i w st).M i i = 1 ∧
    (matOf n (normalizeRow n i w st).M).det = w * (matOf n st.M).det := by
  have hMrow : ∀ c, c < n → (normalizeRow n i w st).M i c = st.M i c * w := by
    intro c hcn
    show (if i = i then
        (if c = i then 1 else if i + 1 ≤ c ∧ c < n then st.M i c * w else st.M i c)
      else st.M i c) = st.M i c * w
    rw [if_pos rfl]
    rcases eq_or_ne c i with rfl | hci
    · rw [if_pos rfl, ← hvw]
    · rw [if_neg hci]
      rcases Nat.lt_or_ge c i with hlt | hge
      · rw [if_neg (by omega), hb c i hlt hlt hin, zero_mul]
      · rw [if_pos ⟨by omega, hcn⟩]
  have hMother : ∀ r c, r ≠ i → (normalizeRow n i w st).M r c = st.M r c := by
    intro r c hr
    show (if r = i then _ else st.M r c) = st.M r c
    rw [if_neg hr]
  refine ⟨?_, ?_, ?_, ?_⟩
  · intro k hk
    rw [hMother k k (by omega)]
    exact hd k hk
  · intro k r hk hkr hrn
    rcases eq_or_ne r i with rfl | hr
    · rw [hMrow k (by omega), hb k r hk hkr hrn, zero_mul]
    · rw [hMother r k hr]
      exact hb k r hk hkr hrn
  · show (if i = i then (if i = i then 1 else _) else _) = 1
    rw [if_pos rfl, if_pos rfl]
  · have hupd : matOf n (normalizeRow n i w st).M =
        (matOf n st.M).updateRow ⟨i, hin⟩ (w • matOf n st.M ⟨i, hin⟩) := by
      ext r c
      rcases eq_or_ne r (⟨i, hin⟩ : Fin n) with rfl | hr
      · rw [Matrix.updateRow_self]
        show (normalizeRow n i w st).M i c.val = (w • matOf n st.M ⟨i, hin⟩) c
        rw [hMrow c.val c.isLt]
        simp [matOf, mul_comm]
      · rw [Matrix.updateRow_ne hr]
        show (normalizeRow n i w st).M r.val c.val = st.M r.val c.val
        exact hMother r.val c.val (by simpa [Fin.ext_iff] using hr)
    rw [hupd, Matrix.det_updateRow_smul, Matrix.updateRow_eq_self]

theorem elimRows_shape (n i : ℕ) (hin : i < n) :
    ∀ (cnt r : ℕ) (st : GState p), i < r → r + cnt = n →
      (∀ k, k ≤ i → st.M k k = 1) →
      (∀ k r2, k < i → k < r2 → r2 < n → st.M r2 k = 0) →
      (∀ r2, i < r2 → r2 < r → st.M r2 i = 0) →
      (∀ k, k ≤ i → (elimRows n i r cnt st).M k k = 1) ∧
      (∀ k r2, k < i + 1 → k < r2 → r2 < n → (elimRows n i r cnt st).M r2 k = 0) ∧
      (matOf n (elimRows n i r cnt st).M).det = (matOf n st.M).det := by
  intro cnt
  induction cnt with
  | zero =>
    intro r st hir hrn hd hb hpiv
    refine ⟨hd, ?_, rfl⟩
    intro k r2 hk hkr2 hr2n
    rcases Nat.lt_or_ge k i with hki | hki
    · exact hb k r2 hki hkr2 hr2n
    · have hkeq : k = i := by omega
      subst hkeq
      exact hpiv r2 hkr2 (by omega)
  | succ cnt ih =>
    intro r st hir hrn hd hb hpiv
    show _ ∧ _ ∧ (matOf n (elimRows n i (r + 1) cnt (elimRow n i r st)).M).det = _
    have hrn' : r < n := by omega
    have hrowi : ∀ c, c < i → st.M i c = 0 := fun c hci => hb c i hci hci hin
    have hM := elimRow_M n i r st hrowi
    have hd2 : ∀ k, k ≤ i → (elimRow n i r st).M k k = 1 := by
      intro k hk
      rw [hM k k (by omega), if_neg (by omega)]
      exact hd k hk
    have hb2 : ∀ k r2, k < i → k < r2 → r2 < n → (elimRow n i r st).M r2 k = 0 := by
      intro k r2 hk hkr2 hr2n
      rw [hM r2 k (by omega)]
      rcases eq_or_ne r2 r with rfl | hr2
      · rw [if_pos rfl, hb k r2 hk (by omega) hr2n, hrowi k hk, zero_mul, sub_zero]
      · rw [if_neg hr2]
        exact hb k r2 hk hkr2 hr2n
    have hpiv2 : ∀ r2, i < r2 → r2 < r + 1 → (elimRow n i r st).M r2 i = 0 := by
      intro r2 hir2 hr2lt
      rw [hM r2 i hin]
      rcases eq_or_ne r2 r with rfl | hr2
      · rw [if_pos rfl, hd i le_rfl, one_mul, sub_self]
      · rw [if_neg hr2]
        exact hpiv r2 hir2 (by omega)
    obtain ⟨hd3, hb3, hdet3⟩ := ih (r + 1) (elimRow n i r st) (by omega) (by omega)
      hd2 hb2 hpiv2
    refine ⟨hd3, hb3, ?_⟩
    rw [hdet3]
    have hupd : matOf n (elimRow n i r st).M =
        (matOf n st.M).updateRow ⟨r, hrn'⟩
          (matOf n st.M ⟨r, hrn'⟩ + (-(st.M r i)) • matOf n st.M ⟨i, hin⟩) := by
      ext r2 c
      rcases eq_or_ne r2 (⟨r, hrn'⟩ : Fin n) with rfl | hr2
      · rw [Matrix.updateRow_self]
        show (elimRow n i r st).M r c.val = _
        rw [hM r c.val c.isLt, if_pos rfl]
        simp [matOf]
        ring
      · rw [Matrix.updateRow_ne hr2]
        show (elimRow n i r st).M r2.val c.val = st.M r2.val c.val
        rw [hM r2.val c.val c.isLt, if_neg (by simpa [Fin.ext_iff] using hr2)]
    rw [hupd, Matrix.det_updateRow_add_smul_self _
      (show (⟨r, hrn'⟩ : Fin n) ≠ ⟨i, hin⟩ by
        simp only [ne_eq, Fin.mk.injEq]; omega)]

/-- A matrix with unit diagonal and zeros below the diagonal has
determinant `1`. -/
theorem matOf_unitUpper_det (n : ℕ) (M : ℕ → ℕ → ZMod p)
    (hd : ∀ k, k < n → M k k = 1)
    (hb : ∀ k r, k < r → r < n → M r k = 0) :
    (matOf n M).det = 1 := by
  have hBT : (matOf n M).BlockTriangular id := by
    intro r c hrc
    show M r.val c.val = 0
    exact hb c.val r.val hrc r.isLt
  rw [Matrix.det_of_upperTriangular hBT]
  refine Finset.prod_eq_one fun i _ => ?_
  show M i.val i.val = 1
  exact hd i.val i.isLt

/-- The forward loop cannot panic when the inverse function is defined on
every value accepted by the pivot test (the pivot is always picked before
being inverted). -/
theorem forward_pick_no_panic (pick : ZMod p → Bool) (inv : ZMod p → Option (ZMod p))
    (Hne : ∀ v, pick v = true → inv v ≠ none) (R C : ℕ) :
    ∀ fuel i st, forward pick inv R C i fuel st ≠ .panicNoInverse := by
  intro fuel
  induction fuel with
  | zero => intro i st h; exact absurd h (by rw [forward]; simp)
  | succ fuel ih =>
    intro i st h
    rcases hfp : findPivot pick st.M i i (R - i) with _ | j
    · simp only [forward, hfp] at h
      exact absurd h (by simp)
    · obtain ⟨hij, hjlt, hpickj⟩ := findPivot_some pick st.M i (R - i) i j hfp
      rcases hns : forwardStepNorm inv C i (if i = j then st else swapRows st i j)
        with _ | st2
      · have hii : (if i = j then st else swapRows st i j).M i i = st.M j i := by
          by_cases hieq : i = j
          · rw [if_pos hieq, hieq]
          · rw [if_neg hieq]
            show (if i = i then st.M j i else _) = st.M j i
            rw [if_pos rfl]
        unfold forwardStepNorm at hns
        by_cases hv : (if i = j then st else swapRows st i j).M i i = 1
        · rw [if_pos hv] at hns
          exact absurd hns (by simp)
        · rw [if_neg hv] at hns
          rcases hiv : inv ((if i = j then st else swapRows st i j).M i i) with _ | w
          · refine Hne _ ?_ hiv
            rw [hii]
            exact hpickj
          · rw [hiv] at hns
            exact absurd hns (by simp)
      · simp only [forward, hfp, hns] at h
        by_cases hf : fuel = 0
        · rw [if_pos hf] at h
          exact absurd h (by simp)
        · rw [if_neg hf] at h
          exact ih (i + 1) _ h

/-- Converse direction of the elimination analysis: if the forward loop runs
to completion (`.next`), the input matrix was invertible — each step only
changes the determinant by a unit factor, and the final matrix is
unit-upper-triangular. -/
theorem forward_isUnit (pick : ZMod p → Bool) (inv : ZMod p → Option (ZMod p))
    (Hinv2 : ∀ v w, pick v = true → inv v = some w → v * w = 1) (n : ℕ) :
    ∀ fuel i st st2, i + fuel = n →
      (∀ k, k < i → st.M k k = 1) →
      (∀ k r, k < i → k < r → r < n → st.M r k = 0) →
      forward pick inv n n i fuel st = .next st2 →
      IsUnit (matOf n st.M).det := by
  intro fuel
  induction fuel with
  | zero =>
    intro i st st2 hi hd hb _
    obtain rfl : i = n := by omega
    rw [matOf_unitUpper_det _ st.M hd (fun k r hkr hrn => hb k r (by omega) hkr hrn)]
    exact isUnit_one
  | succ fuel ih =>
    intro i st st2 hi hd hb hfwd
    have hin : i < n := by omega
    rcases hfp : findPivot pick st.M i i (n - i) with _ | j
    · simp only [forward, hfp] at hfwd
      exact absurd hfwd (by simp)
    · obtain ⟨hij, hjlt, hpickj⟩ := findPivot_some pick st.M i (n - i) i j hfp
      have hjn : j < n := by omega
      set st1 := if i = j then st else swapRows st i j with hst1
      have hsh1 : (∀ k, k < i → st1.M k k = 1) ∧
          (∀ k r, k < i → k < r → r < n → st1.M r k = 0) ∧
          (IsUnit (matOf n st1.M).det → IsUnit (matOf n st.M).det) := by
        rw [hst1]
        by_cases hieq : i = j
        · rw [if_pos hieq]
          exact ⟨hd, hb, fun h => h⟩
        · rw [if_neg hieq]
          obtain ⟨h1, h2, h3⟩ := swapRows_shape n i j st hij hieq hjn hd hb
          refine ⟨h1, h2, fun h => ?_⟩
          rw [h3] at h
          exact (IsUnit.neg_iff _).mp h
      obtain ⟨hd1, hb1, htr1⟩ := hsh1
      have hst1ii : st1.M i i = st.M j i := by
        rw [hst1]
        by_cases hieq : i = j
        · rw [if_pos hieq, hieq]
        · rw [if_neg hieq]
          show (if i = i then st.M j i else _) = st.M j i
          rw [if_pos rfl]
      have hpick1 : pick (st1.M i i) = true := by rw [hst1ii]; exact hpickj
      rcases hns : forwardStepNorm inv n i st1 with _ | st2p
      · simp only [forward, hfp, ← hst1, hns] at hfwd
        exact absurd hfwd (by simp)
      · have hsh2 : (∀ k, k < i → st2p.M k k = 1) ∧
            (∀ k r, k < i → k < r → r < n → st2p.M r k = 0) ∧
            st2p.M i i = 1 ∧
            (IsUnit (matOf n st2p.M).det → IsUnit (matOf n st1.M).det) := by
          unfold forwardStepNorm at hns
          by_cases hv1 : st1.M i i = 1
          · rw [if_pos hv1] at hns
            obtain rfl := Option.some.inj hns
            exact ⟨hd1, hb1, hv1, fun h => h⟩
          · rw [if_neg hv1] at hns
            rcases hiv : inv (st1.M i i) with _ | w
            · rw [hiv] at hns
              exact absurd hns (by simp)
            · rw [hiv] at hns
              obtain rfl := Option.some.inj hns
              have hvw : st1.M i i * w = 1 := Hinv2 _ w hpick1 hiv
              obtain ⟨h1, h2, h3, h4⟩ := normalizeRow_shape n i st1 hin w hvw hd1 hb1
              refine ⟨h1, h2, h3, fun h => ?_⟩
              rw [h4] at h
              exact (IsUnit.mul_iff.mp h).2
        obtain ⟨hd2, hb2, hdiag2, htr2⟩ := hsh2
        have hred : forward pick inv n n i (fuel + 1) st =
            (if fuel = 0 then .next st2p
              else forward pick inv n n (i + 1) fuel
                (elimRows n i (i + 1) (n - (i + 1)) st2p)) := by
          simp only [forward, hfp, ← hst1, hns]
        rw [hred] at hfwd
        by_cases hf0 : fuel = 0
        · refine htr1 (htr2 ?_)
          rw [matOf_unitUpper_det n st2p.M ?_ ?_]
          · exact isUnit_one
          · intro k hk
            rcases Nat.lt_or_ge k i with hki | hki
            · exact hd2 k hki
            · obtain rfl : k = i := by omega
              exact hdiag2
          · intro k r hkr hrn
            exact hb2 k r (by omega) hkr hrn
        · rw [if_neg hf0] at hfwd
          obtain ⟨hd3, hb3, hdet3⟩ := elimRows_shape n i hin (n - (i + 1)) (i + 1)
            st2p (by omega) (by omega)
            (fun k hk => by
              rcases Nat.lt_or_ge k i with hki | hki
              · exact hd2 k hki
              · obtain rfl : k = i := by omega
                exact hdiag2)
            hb2 (fun r2 h1 h2 => by omega)
          have hnext := ih (i + 1) (elimRows n i (i + 1) (n - (i + 1)) st2p) st2
            (by omega) (fun k hk => hd3 k (by omega)) hb3 hfwd
          rw [hdet3] at hnext
          exact htr1 (htr2 hnext)

/-- A square system the solver answers with `Ok` (rather than the
`InvertibleMatrix` error or a panic) necessarily had an invertible matrix;
contrapositively, on a singular square matrix a panic-free solver returns
the `InvertibleMatrix` error. -/
theorem gaussSolve_singular_err (pick : ZMod p → Bool) (inv : ZMod p → Option (ZMod p))
    (Hinv2 : ∀ v w, pick v = true → inv v = some w → v * w = 1)
    (Hne : ∀ v, pick v = true → inv v ≠ none)
    (n : ℕ) (M0 : ℕ → ℕ → ZMod p) (b0 : ℕ → PayloadV p)
    (hsing : ¬ IsUnit (matOf n M0).det) :
    gaussSolve pick inv n n M0 b0 = .invertibleMatrixErr := by
  unfold gaussSolve
  rw [if_neg (lt_irrefl n)]
  rcases hfw : forward pick inv n n 0 n ⟨M0, b0⟩ with st | _ | _
  · exact absurd (forward_isUnit pick inv Hinv2 n n 0 ⟨M0, b0⟩ st (by omega)
      (fun k hk => absurd hk (Nat.not_lt_zero k))
      (fun k r hk _ _ => absurd hk (Nat.not_lt_zero k)) hfw) hsing
  · rfl
  · exact absurd hfw (forward_pick_no_panic pick inv Hne n n n 0 ⟨M0, b0⟩)

/-- Counterexample for C3: over the non-prime modulus 9, the matrix `[[3]]`
is singular in the claim's sense (its pivot entry `3` is non-zero but not
invertible mod 9), yet `solve_matrix` panics through `assert_eq!(gcd, 1)`
instead of returning the `InvertibleMatrix` error. -/
theorem C3_counterexample :
    solve_matrix 9 1 1 (fun _ _ => (3 : ZMod 9)) (fun _ _ => 0) = .panicked ∧
      (SolveOutcome.panicked (p := 9)) ≠ .invertibleMatrixErr := by
  constructor
  · decide
  · intro h
    exact absurd h (by simp)

/-- Claim C3 (amended): `solve_matrix_mod_256` and `solve_matrix_mod_257`
never panic when `num_rows >= num_cols`, and on a singular square matrix
(one whose determinant is not invertible mod 256 resp. mod 257 — in
particular whenever some pivot column has no odd resp. non-zero entry) they
return the `InvertibleMatrix` error; the generic `solve_matrix` returns
`InvertibleMatrix` when a pivot column has no non-zero entry (shown for the
first column over any modulus, and for every singular square matrix over a
prime modulus), but it panics — it does not return the error — when the
first non-zero entry of a pivot column is not invertible modulo the
modulus, as on `[[3]]` mod 9. -/
theorem solver_singular_behavior :
    (∀ (R C : ℕ) (M0 : ℕ → ℕ → ZMod 256) (b0 : ℕ → PayloadV 256), C ≤ R →
      solve_matrix_mod_256 R C M0 b0 ≠ .panicked) ∧
    (∀ (R C : ℕ) (M0 : ℕ → ℕ → ZMod 257) (b0 : ℕ → PayloadV 257), C ≤ R →
      solve_matrix_mod_257 R C M0 b0 ≠ .panicked) ∧
    (∀ (n : ℕ) (M0 : ℕ → ℕ → ZMod 256) (b0 : ℕ → PayloadV 256),
      ¬ IsUnit (matOf n M0).det →
      solve_matrix_mod_256 n n M0 b0 = .invertibleMatrixErr) ∧
    (∀ (n : ℕ) (M0 : ℕ → ℕ → ZMod 257) (b0 : ℕ → PayloadV 257),
      ¬ IsUnit (matOf n M0).det →
      solve_matrix_mod_257 n n M0 b0 = .invertibleMatrixErr) ∧
    (∀ (q : ℕ), q.Prime → ∀ (n : ℕ) (M0 : ℕ → ℕ → ZMod q) (b0 : ℕ → PayloadV q),
      ¬ IsUnit (matOf n M0).det →
      solve_matrix q n n M0 b0 = .invertibleMatrixErr) ∧
    (∀ (q R C : ℕ) (M0 : ℕ → ℕ → ZMod q) (b0 : ℕ → PayloadV q), 0 < C → C ≤ R →
      (∀ r, r < R → M0 r 0 = 0) →
      solve_matrix q R C M0 b0 = .invertibleMatrixErr) ∧
    solve_matrix 9 1 1 (fun _ _ => (3 : ZMod 9)) (fun _ _ => 0) = .panicked := by
  refine ⟨?_, ?_, ?_, ?_, ?_, ?_, by decide⟩
  · intro R C M0 b0 hRC h
    unfold solve_matrix_mod_256 gaussSolve at h
    rw [if_neg (by omega)] at h
    rcases hfw : forward (fun v => v.val % 2 == 1)
        (fun v => some ((INV_MOD_256.getD v.val 0 : ℕ) : ZMod 256)) R C 0 C ⟨M0, b0⟩
      with st | _ | _
    · rw [hfw] at h
      exact absurd h (by simp)
    · rw [hfw] at h
      exact absurd h (by simp)
    · exact forward_no_panic _ _ (fun v => by simp) R C C 0 ⟨M0, b0⟩ hfw
  · intro R C M0 b0 hRC h
    unfold solve_matrix_mod_257 gaussSolve at h
    rw [if_neg (by omega)] at h
    rcases hfw : forward (fun v => decide (v ≠ 0))
        (fun v => some ((INV_MOD_257.getD v.val 0 : ℕ) : ZMod 257)) R C 0 C ⟨M0, b0⟩
      with st | _ | _
    · rw [hfw] at h
      exact absurd h (by simp)
    · rw [hfw] at h
      exact absurd h (by simp)
    · exact forward_no_panic _ _ (fun v => by simp) R C C 0 ⟨M0, b0⟩ hfw
  · intro n M0 b0 hsing
    unfold solve_matrix_mod_256
    refine gaussSolve_singular_err _ _ ?_ (fun v _ => by simp) n M0 b0 hsing
    intro v w hp hw
    obtain rfl := Option.some.inj hw
    exact table256_correct v (by simpa using hp)
  · intro n M0 b0 hsing
    unfold solve_matrix_mod_257
    refine gaussSolve_singular_err _ _ ?_ (fun v _ => by simp) n M0 b0 hsing
    intro v w hp hw
    obtain rfl := Option.some.inj hw
    exact table257_correct v (of_decide_eq_true hp)
  · intro q hq n M0 b0 hsing
    unfold solve_matrix
    refine gaussSolve_singular_err _ _ ?_ ?_ n M0 b0 hsing
    · intro v w hp hw
      by_cases hg : Nat.gcd v.val q = 1
      · rw [if_pos hg] at hw
        obtain rfl := Option.some.inj hw
        rw [ZMod.mul_inv_eq_gcd, hg, Nat.cast_one]
      · rw [if_neg hg] at hw
        exact absurd hw (by simp)
    · intro v hp
      haveI : Fact (1 < q) := ⟨hq.one_lt⟩
      rcases eq_or_ne v 1 with rfl | hv1
      · have hg : Nat.gcd (1 : ZMod q).val q = 1 := by
          rw [ZMod.val_one]
          exact Nat.gcd_one_left q
        rw [if_pos hg]
        exact Option.some_ne_none _
      · obtain ⟨w, hw, _⟩ := inv_gcd_complete q hq v hp hv1
        rw [hw]
        exact Option.some_ne_none _
  · intro q R C M0 b0 hC hRC hcol
    obtain ⟨C2, rfl⟩ : ∃ C2, C = C2 + 1 := ⟨C - 1, by omega⟩
    unfold solve_matrix gaussSolve
    rw [if_neg (by omega)]
    have hfp : findPivot (fun v => decide (v ≠ 0)) M0 0 0 (R - 0) = none := by
      refine findPivot_all_false _ M0 0 (R - 0) 0 fun r h1 h2 => ?_
      rw [hcol r (by omega)]
      simp
    rw [forward, hfp]

/-- Witness for the amended C3 statement, at the zero `1 × 1` matrix (and the
zero first column) for each conjunct. -/
theorem solver_singular_behavior_witness :
    (solve_matrix_mod_256 1 1 (fun _ _ => 0) (fun _ _ => 0) ≠ .panicked) ∧
    (solve_matrix_mod_257 1 1 (fun _ _ => 0) (fun _ _ => 0) ≠ .panicked) ∧
    (solve_matrix_mod_256 1 1 (fun _ _ => 0) (fun _ _ => 0) = .invertibleMatrixErr) ∧
    (solve_matrix_mod_257 1 1 (fun _ _ => 0) (fun _ _ => 0) = .invertibleMatrixErr) ∧
    (solve_matrix 2 1 1 (fun _ _ => 0) (fun _ _ => 0) = .invertibleMatrixErr) ∧
    (solve_matrix 6 1 1 (fun _ _ => 0) (fun _ _ => 0) = .invertibleMatrixErr) :=
  ⟨solver_singular_behavior.1 1 1 (fun _ _ => 0) (fun _ _ => 0) le_rfl,
    solver_singular_behavior.2.1 1 1 (fun _ _ => 0) (fun _ _ => 0) le_rfl,
    solver_singular_behavior.2.2.1 1 (fun _ _ => 0) (fun _ _ => 0)
      (by
        haveI : Fact (1 < 256) := ⟨by norm_num⟩
        intro h
        rw [show (matOf 1 (fun _ _ => (0 : ZMod 256))).det = 0 from by
          simp [matOf, Matrix.det_fin_one]] at h
        exact not_isUnit_zero h),
    solver_singular_behavior.2.2.2.1 1 (fun _ _ => 0) (fun _ _ => 0)
      (by
        haveI : Fact (1 < 257) := ⟨by norm_num⟩
        intro h
        rw [show (matOf 1 (fun _ _ => (0 : ZMod 257))).det = 0 from by
          simp [matOf, Matrix.det_fin_one]] at h
        exact not_isUnit_zero h),
    solver_singular_behavior.2.2.2.2.1 2 Nat.prime_two 1 (fun _ _ => 0) (fun _ _ => 0)
      (by
        haveI : Fact (1 < 2) := ⟨by norm_num⟩
        intro h
        rw [show (matOf 1 (fun _ _ => (0 : ZMod 2))).det = 0 from by
          simp [matOf, Matrix.det_fin_one]] at h
        exact not_isUnit_zero h),
    solver_singular_behavior.2.2.2.2.2.1 6 1 1 (fun _ _ => 0) (fun _ _ => 0)
      one_pos le_rfl (fun _ _ => rfl)⟩

theorem foldl_insert_eq_union (l : List ℕ) :
    ∀ s : Finset ℕ, l.foldl (fun s a => insert a s) s = s ∪ l.toFinset := by
  induction l with
  | nil => intro s; simp
  | cons a l ih =>
    intro s
    simp only [List.foldl_cons, List.toFinset_cons, ih, Finset.insert_union,
      Finset.union_insert]

theorem gaussSolve_zero_cols (pick : ZMod p → Bool) (inv : ZMod p → Option (ZMod p))
    (R : ℕ) (M0 : ℕ → ℕ → ZMod p) (b0 : ℕ → PayloadV p) :
    gaussSolve pick inv R 0 M0 b0 = .ok [] := by
  unfold gaussSolve
  rw [if_neg (by omega)]
  simp only [forward, backSubst, List.range_zero, List.map_nil]

/-- Counterexample for C2: with `pertinent_count = 1` and a single index
ciphertext whose coefficients decode to all zeros, every ciphertext fails the
success test, yet `decode_digest` returns `Ok` with empty indices and empty
payloads instead of an error. -/
theorem C2_counterexample :
    (decode_pertinent_indices ⟨256, 8, 2, 2, 1, 11, 1⟩ ∅ [0, 0]).2 = false ∧
    decode_digest ⟨256, 8, 2, 2, 1, 11, 1⟩ ∅ [[0, 0]] (fun _ _ => 0) (fun _ _ => 0) =
      .ok [] [] := by
  constructor
  · decide
  · have hloop : digestLoop ⟨256, 8, 2, 2, 1, 11, 1⟩ [[0, 0]] ∅ = ∅ := by decide
    simp only [decode_digest, hloop, Finset.sort_empty, List.length_nil, if_true]
    unfold solve_matrix_mod_256
    rw [gaussSolve_zero_cols]
    rfl

/-- Claim C2 (amended): when the index-ciphertext loop recovers nothing at
all (every ciphertext fails the success test and no bucket contributes an
index), `decode_digest` does not return a retrieval-failure error - no such
error exists in `OmrError` - but proceeds to the payload stage with an empty
index list and returns `Ok` with empty indices and empty payloads; its only
error paths come from the matrix solver. -/
theorem decode_digest_no_retrieval_error (P : RetrievalParamsModel) (set0 : Finset ℕ)
    (cts : List (List ℕ)) (weights : ℕ → ℕ → ℕ) (combined : ℕ → Fin PAYLOAD_LENGTH → ℕ)
    (hfail : digestLoop P cts set0 = ∅) :
    decode_digest P set0 cts weights combined = .ok [] [] := by
  simp only [decode_digest, hfail, Finset.sort_empty, List.length_nil]
  by_cases h256 : P.indexModulus = 256
  · rw [if_pos h256]
    unfold solve_matrix_mod_256
    rw [gaussSolve_zero_cols]
    rfl
  · rw [if_neg h256]
    by_cases h257 : P.indexModulus = 257
    · rw [if_pos h257]
      unfold solve_matrix_mod_257
      rw [gaussSolve_zero_cols]
      rfl
    · rw [if_neg h257]
      unfold solve_matrix
      rw [gaussSolve_zero_cols]
      rfl

/-- Witness for the amended C2 statement, at the counterexample's input. -/
theorem decode_digest_no_retrieval_error_witness :
    digestLoop ⟨257, 8, 2, 2, 1, 6, 1⟩ [[0, 0]] ∅ = ∅ ∧
    decode_digest ⟨257, 8, 2, 2, 1, 6, 1⟩ ∅ [[0, 0]] (fun _ _ => 0) (fun _ _ => 0) =
      .ok [] [] :=
  ⟨by decide,
    decode_digest_no_retrieval_error ⟨257, 8, 2, 2, 1, 6, 1⟩ ∅ [[0, 0]]
      (fun _ _ => 0) (fun _ _ => 0) (by decide)⟩

/-- Claim C10: the recovered-index set is monotone - `decode_pertinent_indices`
only inserts (the new set is the old set united with the indices extracted
from the ciphertext alone), indices persist across the `decode_digest` loop,
the loop's final set is the initial set united with the extractions of the
prefix of ciphertexts it processed, and the index list a successful
`decode_digest` returns is exactly that set, sorted. -/
theorem pertinent_indices_monotone :
    (∀ (P : RetrievalParamsModel) (set : Finset ℕ) (d : List ℕ),
      set ⊆ (decode_pertinent_indices P set d).1) ∧
    (∀ (P : RetrievalParamsModel) (set : Finset ℕ) (d : List ℕ),
      (decode_pertinent_indices P set d).1 = set ∪ (extractIndices P d).toFinset) ∧
    (∀ (P : RetrievalParamsModel) (cts : List (List ℕ)) (set : Finset ℕ),
      set ⊆ digestLoop P cts set ∧
      ∃ k, digestLoop P cts set =
        set ∪ ((cts.take k).flatMap (extractIndices P)).toFinset) ∧
    (∀ (P : RetrievalParamsModel) (set0 : Finset ℕ) (cts : List (List ℕ))
      (weights : ℕ → ℕ → ℕ) (combined : ℕ → Fin PAYLOAD_LENGTH → ℕ)
      (indices : List ℕ) (payloads : List (List ℕ)),
      decode_digest P set0 cts weights combined = .ok indices payloads →
      indices = (digestLoop P cts set0).sort (· ≤ ·)) := by
  have hdec : ∀ (P : RetrievalParamsModel) (set : Finset ℕ) (d : List ℕ),
      (decode_pertinent_indices P set d).1 = set ∪ (extractIndices P d).toFinset :=
    fun P set d => foldl_insert_eq_union (extractIndices P d) set
  have hloop : ∀ (P : RetrievalParamsModel) (cts : List (List ℕ)) (set : Finset ℕ),
      set ⊆ digestLoop P cts set ∧
      ∃ k, digestLoop P cts set =
        set ∪ ((cts.take k).flatMap (extractIndices P)).toFinset := by
    intro P cts
    induction cts with
    | nil =>
      intro set
      exact ⟨subset_rfl, 0, by simp [digestLoop]⟩
    | cons d rest ih =>
      intro set
      rw [digestLoop]
      by_cases hok : (decode_pertinent_indices P set d).2 = true
      · rw [if_pos hok, hdec]
        refine ⟨Finset.subset_union_left, 1, ?_⟩
        simp
      · rw [if_neg hok]
        obtain ⟨hsub, k, hk⟩ := ih (decode_pertinent_indices P set d).1
        refine ⟨?_, k + 1, ?_⟩
        · refine subset_trans ?_ hsub
          rw [hdec]
          exact Finset.subset_union_left
        · rw [hk, hdec]
          simp only [List.take_succ_cons, List.flatMap_cons, List.toFinset_append,
            Finset.union_assoc]
  refine ⟨?_, hdec, hloop, ?_⟩
  · intro P set d
    rw [hdec]
    exact Finset.subset_union_left
  · intro P set0 cts weights combined indices payloads h
    simp only [decode_digest] at h
    split at h
    · split at h
      · injection h with h1 h2
        exact h1.symm
      · exact absurd h (by simp)
      · exact absurd h (by simp)
    · split at h
      · split at h
        · injection h with h1 h2
          exact h1.symm
        · exact absurd h (by simp)
        · exact absurd h (by simp)
      · split at h
        · injection h with h1 h2
          exact h1.symm
        · exact absurd h (by simp)
        · exact absurd h (by simp)

/-- Witness for C10 at a concrete run. -/
theorem pertinent_indices_monotone_witness :
    decode_digest ⟨257, 8, 2, 2, 1, 6, 1⟩ ∅ [[0, 0]] (fun _ _ => 0) (fun _ _ => 0) =
      .ok [] [] ∧
    ([] : List ℕ) = (digestLoop ⟨257, 8, 2, 2, 1, 6, 1⟩ [[0, 0]] ∅).sort (· ≤ ·) := by
  have hloop : digestLoop ⟨257, 8, 2, 2, 1, 6, 1⟩ [[0, 0]] ∅ = ∅ := by decide
  have hdd : decode_digest ⟨257, 8, 2, 2, 1, 6, 1⟩ ∅ [[0, 0]]
      (fun _ _ => 0) (fun _ _ => 0) = .ok [] [] := by
    simp only [decode_digest, hloop, Finset.sort_empty, List.length_nil]
    rw [if_pos trivial]
    unfold solve_matrix_mod_257
    rw [gaussSolve_zero_cols]
    rfl
  exact ⟨hdd, pertinent_indices_monotone.2.2.2 ⟨257, 8, 2, 2, 1, 6, 1⟩ ∅ [[0, 0]]
    (fun _ _ => 0) (fun _ _ => 0) [] [] hdd⟩
